import Mathlib

/-!
Verification development for the turtle-lsp language server core.

The TypeScript sources are embedded shallowly:

* JavaScript plain objects used as string-keyed dictionaries (`Record<string, T>`)
  are modelled as association lists (`Rec`) that preserve key insertion order,
  with the JavaScript semantics of property read, assignment and `delete`.
  A JavaScript object never holds a key twice, so the operations act on the
  first occurrence of a key; reachable states keep their key lists duplicate
  free (`nodupKeys`), which makes the two readings agree.
* `Indexer` (src/indexer.ts) becomes `IndexerState` together with the pure state
  transformers `removeFromIndexes` and `reindexDocument`.  The extraction
  helpers `collectNamespaceEntries` / `collectSubjectEntries` call an external
  N3 parser, so the index state machine is parameterised over an extraction
  function `extract : String → Extraction`; the parser-free extractor
  `collectSymbolEntries` and the parser-failure fallback extractors are
  implemented concretely below.
-/

namespace TurtleLsp


/-- A line/character position, as in the LSP protocol. -/
structure Pos where
  line : Nat
  character : Nat
deriving DecidableEq, Repr

/-- A half-open line/character range. -/
structure Range where
  startPos : Pos
  endPos : Pos
deriving DecidableEq, Repr

/-- A (document uri, range) pair, as pushed into the three global indexes. -/
structure Location where
  uri : String
  range : Range
deriving DecidableEq, Repr

/-! ### JavaScript `Record<string, α>` as an insertion-ordered association list -/


/-- A JavaScript string-keyed object: an association list in key insertion order. -/
abbrev Rec (α : Type) := List (String × α)

/-- Property read `m[k]`. -/
def recGet {α : Type} : Rec α → String → Option α
  | [], _ => none
  | e :: rest, k => if e.1 = k then some e.2 else recGet rest k

/-- Key presence test. -/
def recHas {α : Type} : Rec α → String → Bool
  | [], _ => false
  | e :: rest, k => e.1 = k || recHas rest k

/-- Property assignment `m[k] = v`: updates in place if present, else appends. -/
def recSet {α : Type} : Rec α → String → α → Rec α
  | [], k, v => [(k, v)]
  | e :: rest, k, v => if e.1 = k then (k, v) :: rest else e :: recSet rest k v

/-- `delete m[k]`. -/
def recDelete {α : Type} : Rec α → String → Rec α
  | [], _ => []
  | e :: rest, k => if e.1 = k then rest else e :: recDelete rest k

/-- `if (!m[k]) m[k] = []; m[k].push(v)` — the index insertion idiom. -/
def recPush (m : Rec (List Location)) (k : String) (v : Location) : Rec (List Location) :=
  recSet m k (((recGet m k).getD []) ++ [v])

/-- All keys, in insertion order (`Object.keys`). -/
def recKeys {α : Type} (m : Rec α) : List String := m.map (fun e => e.1)

/-- Keys of a record are duplicate free (always true of a JavaScript object). -/
def nodupKeys {α : Type} (m : Rec α) : Prop := (recKeys m).Nodup

/-! ### The workspace index (src/indexer.ts) -/


/-- The per-document contribution record (`DocCache` in src/indexer.ts).
`prefixes` stores `(prefix label, range)` pairs, `subjects` and `symbols`
store `(label, range)` pairs, `map` is the namespace map. -/
structure DocCache where
  prefixes : List (String × Range)
  subjects : List (String × Range)
  symbols : List (String × Range)
  map : Rec String
deriving DecidableEq, Repr

/-- One namespace declaration as produced by `collectNamespaceEntries`. -/
structure NsEntry where
  pfx : String
  iri : String
  range : Range
deriving DecidableEq, Repr

/-- The result of running the document extractors on a text:
`collectNamespaceEntries`, `collectSubjectEntries`, `collectSymbolEntries`
and `collectNamespaceMap`.  The namespace/subject collectors consult the
external N3 parser, so `reindexDocument` is parameterised over a function
`String → Extraction`; concrete parser-free instances appear further below. -/
structure Extraction where
  prefixes : List NsEntry
  subjects : List (String × Range)
  symbols : List (String × Range)
  map : Rec String
deriving DecidableEq, Repr

/-- The mutable state of the `Indexer` class. -/
structure IndexerState where
  prefixIndex : Rec (List Location)
  subjectIndex : Rec (List Location)
  symbolIndex : Rec (List Location)
  docCache : Rec DocCache
deriving DecidableEq, Repr

/-- The initial state: all four records empty. -/
def emptyState : IndexerState := ⟨[], [], [], []⟩

/-- One step of the removal loops in `removeFromIndexes`:
```
if (this.prefixIndex[p.prefix]) {
  this.prefixIndex[p.prefix] = this.prefixIndex[p.prefix].filter((loc) => loc.uri !== uri)
  if (this.prefixIndex[p.prefix].length === 0) delete this.prefixIndex[p.prefix]
}
``` -/
def removeEntry (idx : Rec (List Location)) (uri label : String) : Rec (List Location) :=
  match recGet idx label with
  | none => idx
  | some locs =>
      if (locs.filter (fun loc => loc.uri ≠ uri)).isEmpty then recDelete idx label
      else recSet idx label (locs.filter (fun loc => loc.uri ≠ uri))

/-- The full removal loop over one contribution list. -/
def removeAll (idx : Rec (List Location)) (uri : String)
    (entries : List (String × Range)) : Rec (List Location) :=
  entries.foldl (fun ix e => removeEntry ix uri e.1) idx

/-- The insertion loop of `reindexDocument`:
`if (!idx[label]) idx[label] = []; idx[label].push({ uri, range })`. -/
def insertAll (idx : Rec (List Location)) (uri : String)
    (entries : List (String × Range)) : Rec (List Location) :=
  entries.foldl (fun ix e => recPush ix e.1 ⟨uri, e.2⟩) idx

/-- `Indexer.removeFromIndexes(uri)` (src/indexer.ts lines 82-105). -/
def removeFromIndexes (s : IndexerState) (uri : String) : IndexerState :=
  let s1 := match recGet s.docCache uri with
    | some cached =>
        { s with
          prefixIndex := removeAll s.prefixIndex uri cached.prefixes
          subjectIndex := removeAll s.subjectIndex uri cached.subjects
          symbolIndex := removeAll s.symbolIndex uri cached.symbols }
    | none => s
  { s1 with docCache := recDelete s1.docCache uri }

/-- The `docCache` record built by `reindexDocument` from the extraction. -/
def extractionCache (ex : Extraction) : DocCache :=
  { prefixes := ex.prefixes.map (fun p => (p.pfx, p.range))
    subjects := ex.subjects
    symbols := ex.symbols
    map := ex.map }

/-- `Indexer.reindexDocument(uri, text)` (src/indexer.ts lines 53-80). -/
def reindexDocument (extract : String → Extraction) (s : IndexerState)
    (uri text : String) : IndexerState :=
  let s0 := removeFromIndexes s uri
  let c := extractionCache (extract text)
  { prefixIndex := insertAll s0.prefixIndex uri c.prefixes
    subjectIndex := insertAll s0.subjectIndex uri c.subjects
    symbolIndex := insertAll s0.symbolIndex uri c.symbols
    docCache := recSet s0.docCache uri c }

/-- The operations the editor-protocol layer performs on the index:
document open/change (`reindexDocument`) and close (`removeFromIndexes`). -/
inductive IndexOp where
  | reindex (uri text : String)
  | close (uri : String)

/-- Apply a single operation. -/
def applyOp (extract : String → Extraction) (s : IndexerState) : IndexOp → IndexerState
  | .reindex uri text => reindexDocument extract s uri text
  | .close uri => removeFromIndexes s uri

/-- Run a call sequence starting from the empty index. -/
def runOps (extract : String → Extraction) (ops : List IndexOp) : IndexerState :=
  ops.foldl (applyOp extract) emptyState

/-! ### Pointwise characterisation of the removal and insertion loops -/


/-- What removal does to one label's slot. -/
def filterErase (o : Option (List Location)) (uri : String) : Option (List Location) :=
  match o with
  | none => none
  | some locs =>
      if (locs.filter (fun loc => loc.uri ≠ uri)).isEmpty then none
      else some (locs.filter (fun loc => loc.uri ≠ uri))

/-- What insertion does to one label's slot. -/
def appendOpt (o : Option (List Location)) (newLocs : List Location) :
    Option (List Location) :=
  if newLocs.isEmpty then o else some ((o.getD []) ++ newLocs)

/-! ### C1: the index/contribution consistency invariant -/


/-- The `(label, location)` pair is backed by the contribution record of the
document the location names. -/
def entryInCache (cache : Rec DocCache) (proj : DocCache → List (String × Range))
    (label : String) (loc : Location) : Prop :=
  ∃ c, recGet cache loc.uri = some c ∧ (label, loc.range) ∈ proj c

/-- One global index agrees exactly with the per-document contributions:
every index entry is in the contribution record of its document, and every
contribution entry is in the index. -/
def idxConsistent (idx : Rec (List Location)) (proj : DocCache → List (String × Range))
    (cache : Rec DocCache) : Prop :=
  (∀ label locs, recGet idx label = some locs →
      ∀ loc ∈ locs, entryInCache cache proj label loc) ∧
  (∀ uri c, recGet cache uri = some c → ∀ e ∈ proj c,
      ∃ locs, recGet idx e.1 = some locs ∧
        ({ uri := uri, range := e.2 } : Location) ∈ locs)

/-- The union of all contribution records equals the three global indexes. -/
def consistent (s : IndexerState) : Prop :=
  idxConsistent s.prefixIndex (fun c => c.prefixes) s.docCache ∧
  idxConsistent s.subjectIndex (fun c => c.subjects) s.docCache ∧
  idxConsistent s.symbolIndex (fun c => c.symbols) s.docCache

/-- Indexes never retain a key with an empty list (`removeFromIndexes` prunes
such keys; insertion only ever pushes). -/
def noEmpty (idx : Rec (List Location)) : Prop :=
  ∀ label locs, recGet idx label = some locs → locs ≠ []

/-- Well-formedness of reachable indexer states. -/
def wfState (s : IndexerState) : Prop :=
  consistent s ∧
  nodupKeys s.prefixIndex ∧ nodupKeys s.subjectIndex ∧ nodupKeys s.symbolIndex ∧
  nodupKeys s.docCache ∧
  noEmpty s.prefixIndex ∧ noEmpty s.subjectIndex ∧ noEmpty s.symbolIndex

/-- What one pass of the removal loop does to a single key/value pair. -/
def removePair (uri label : String) (e : String × List Location) :
    Option (String × List Location) :=
  if e.1 = label then
    (if (e.2.filter (fun loc => loc.uri ≠ uri)).isEmpty then none
     else some (label, e.2.filter (fun loc => loc.uri ≠ uri)))
  else some e

/-- What the whole removal loop does to a single key/value pair. -/
def removeFn (uri : String) (entries : List (String × Range))
    (x : String × List Location) : Option (String × List Location) :=
  if entries.any (fun e => e.1 = x.1) then
    (if (x.2.filter (fun loc => loc.uri ≠ uri)).isEmpty then none
     else some (x.1, x.2.filter (fun loc => loc.uri ≠ uri)))
  else some x

/-- The locations the insertion loop pushes for one label. -/
def newLocsFor (uri : String) (entries : List (String × Range)) (k : String) :
    List Location :=
  (entries.filter (fun e => e.1 = k)).map
    (fun e => ({ uri := uri, range := e.2 } : Location))

/-- The fresh keys (in first-touch order) the insertion loop appends, together
with their pushed location lists, given the keys already present. -/
def freshPart (uri : String) : List String → List (String × Range) → Rec (List Location)
  | _, [] => []
  | keys, e :: rest =>
      if e.1 ∈ keys then freshPart uri keys rest
      else (e.1, ({ uri := uri, range := e.2 } : Location) :: newLocsFor uri rest e.1) ::
        freshPart uri (keys ++ [e.1]) rest

/-! ### Concrete document scanners

`collectSymbolEntries` is parser-free in the source; the namespace/subject
collectors are embedded through their parser-failure fallback branches
(`catch` arms of src/indexer.ts lines 176-194 and 266-285), which is the path
the real code takes on any text the N3 parser rejects.  JavaScript `\s` (and
`trim`) is modelled by the ASCII whitespace characters. -/


/-- The regex class `[A-Za-z]`. -/
def isAsciiAlpha (c : Char) : Bool :=
  (decide ('A' ≤ c) && decide (c ≤ 'Z')) || (decide ('a' ≤ c) && decide (c ≤ 'z'))

/-- The regex class `[\w-]` = `[A-Za-z0-9_-]`. -/
def isPNChar (c : Char) : Bool :=
  isAsciiAlpha c || (decide ('0' ≤ c) && decide (c ≤ '9')) || c = '_' || c = '-'

/-- JavaScript `\s`, restricted to its ASCII members. -/
def isJsSpace (c : Char) : Bool :=
  c = ' ' || c = '\t' || c = '\n' || c = '\r' || c = '\x0B' || c = '\x0C'

/-- `String.prototype.trim`. -/
def jsTrim (s : String) : String :=
  String.mk (((s.toList.dropWhile isJsSpace).reverse.dropWhile isJsSpace).reverse)

/-- `text.split(/\r?\n/)` (a lone `\r` is not a separator). -/
def splitLinesAux : List Char → List Char → List String
  | [], acc => [String.mk acc.reverse]
  | '\r' :: '\n' :: rest, acc => String.mk acc.reverse :: splitLinesAux rest []
  | '\n' :: rest, acc => String.mk acc.reverse :: splitLinesAux rest []
  | c :: rest, acc => splitLinesAux rest (c :: acc)

def splitLines (s : String) : List String := splitLinesAux s.toList []

/-- Length of a match of `[A-Za-z][\w-]*:[\w-]+` anchored at the head of the
character list, if any.  The regex is deterministic here: the greedy word runs
cannot consume the `:` so no backtracking alternative exists. -/
def pnameMatchLen (cs : List Char) : Option Nat :=
  match cs with
  | [] => none
  | c :: rest =>
    if isAsciiAlpha c then
      let w1 := rest.takeWhile isPNChar
      match rest.drop w1.length with
      | ':' :: r2 =>
        let w2 := r2.takeWhile isPNChar
        if w2.isEmpty then none else some (1 + w1.length + 1 + w2.length)
      | _ => none
    else none

/-- `line.matchAll(/([A-Za-z][\w-]*:[\w-]+)/g)`: scan left to right, emitting
(match, start index, length) and resuming after each match.  Each step consumes
at least one character, so `fuel = cs.length` runs the scan to completion. -/
def scanPrefixedNames : Nat → List Char → Nat → List (String × Nat × Nat)
  | 0, _, _ => []
  | _ + 1, [], _ => []
  | fuel + 1, c :: rest, i =>
    match pnameMatchLen (c :: rest) with
    | some len =>
        (String.mk ((c :: rest).take len), i, len) ::
          scanPrefixedNames fuel ((c :: rest).drop len) (i + len)
    | none => scanPrefixedNames fuel rest (i + 1)

/-- `Indexer.collectSymbolEntries(text)` (src/indexer.ts lines 290-308):
every `prefix:local` occurrence on every line, one entry per occurrence. -/
def collectSymbolEntries (text : String) : List (String × Range) :=
  ((splitLines text).enum.map (fun p =>
    (scanPrefixedNames p.2.toList.length p.2.toList 0).map (fun m =>
      (m.1, ({ startPos := { line := p.1, character := m.2.1 }
               endPos := { line := p.1, character := m.2.1 + m.2.2 } } : Range))))).flatten

/-- `hay.indexOf(needle)`, `none` for JavaScript's `-1`. -/
def strIndexOfAux (needle : List Char) : List Char → Nat → Option Nat
  | [], i => if needle.isEmpty then some i else none
  | c :: rest, i =>
      if needle.isPrefixOf (c :: rest) then some i else strIndexOfAux needle rest (i + 1)

def strIndexOf (hay needle : String) : Option Nat :=
  strIndexOfAux needle.toList hay.toList 0

/-- Case-insensitive literal match: consume `pat` (given lowercase) from `cs`. -/
def stripCI : List Char → List Char → Option (List Char)
  | [], cs => some cs
  | _ :: _, [] => none
  | p :: ps, c :: cs => if c.toLower = p then stripCI ps cs else none

/-- `trimmed.match(/^@?prefix\s+([A-Za-z][\w-]*):\s*<([^>]+)>/i)`: the
namespace-declaration fallback pattern, returning (prefix label, iri). -/
def matchNsDecl (cs : List Char) : Option (String × String) :=
  let cs0 := match cs with
    | '@' :: r => r
    | r => r
  match stripCI "prefix".toList cs0 with
  | none => none
  | some r1 =>
    let sp := r1.takeWhile isJsSpace
    if sp.isEmpty then none
    else
      match r1.drop sp.length with
      | c :: r2 =>
        if isAsciiAlpha c then
          let w1 := r2.takeWhile isPNChar
          match r2.drop w1.length with
          | ':' :: r3 =>
            let sp2 := r3.takeWhile isJsSpace
            match r3.drop sp2.length with
            | '<' :: r4 =>
              let iri := r4.takeWhile (fun x => x ≠ '>')
              if iri.isEmpty then none
              else
                match r4.drop iri.length with
                | '>' :: _ => some (String.mk (c :: w1), String.mk iri)
                | _ => none
            | _ => none
          | _ => none
        else none
      | [] => none

/-- The `catch` fallback of `Indexer.collectNamespaceEntries` (src/indexer.ts
lines 176-194): a per-line regex scan for `@prefix name: <iri>` declarations.
The range start is `line.indexOf(prefix)` (0 when not found, which cannot
happen for a prefix extracted from the line). -/
def collectNamespaceEntriesFallback (text : String) : List NsEntry :=
  ((splitLines text).enum.map (fun p =>
    match matchNsDecl (jsTrim p.2).toList with
    | some g =>
      let start := (strIndexOf p.2 g.1).getD 0
      [({ pfx := g.1, iri := g.2,
          range := { startPos := { line := p.1, character := start }
                     endPos := { line := p.1, character := start + g.1.length } } } : NsEntry)]
    | none => [])).flatten

/-- `trimmed.match(/^([<A-Za-z][^\s>]*)/)`. -/
def matchSubject (cs : List Char) : Option String :=
  match cs with
  | [] => none
  | c :: rest =>
      if c = '<' || isAsciiAlpha c then
        some (String.mk (c :: rest.takeWhile (fun x => !isJsSpace x && x ≠ '>')))
      else none

/-- The `catch` fallback of `Indexer.collectSubjectEntries` (src/indexer.ts
lines 266-285): the first token of every line that is not empty and does not
start with `@` or `#`, one entry per line, no deduplication. -/
def collectSubjectEntriesFallback (text : String) : List (String × Range) :=
  ((splitLines text).enum.map (fun p =>
    let trimmed := jsTrim p.2
    if trimmed.toList.isEmpty ∨ trimmed.toList.head? = some '@'
        ∨ trimmed.toList.head? = some '#' then []
    else
      match matchSubject trimmed.toList with
      | some label =>
        let start := (strIndexOf p.2 label).getD 0
        [(label, ({ startPos := { line := p.1, character := start }
                    endPos := { line := p.1, character := start + label.length } } : Range))]
      | none => [])).flatten

/-- `Indexer.collectNamespaceMap` applied to already-collected entries
(src/indexer.ts lines 199-205): `map[p.prefix] = p.iri` in order. -/
def collectNamespaceMap (prefixes : List NsEntry) : Rec String :=
  prefixes.foldl (fun m p => recSet m p.pfx p.iri) []

/-- The whole extraction of `reindexDocument` along the parser-failure path:
fallback namespace entries, fallback subject entries, and the (parser-free)
symbol entries. -/
def fallbackExtract (text : String) : Extraction :=
  { prefixes := collectNamespaceEntriesFallback text
    subjects := collectSubjectEntriesFallback text
    symbols := collectSymbolEntries text
    map := collectNamespaceMap (collectNamespaceEntriesFallback text) }

/-! ### The vocabulary cache state machine (src/completion.ts, async variant)

`CompletionEngine.loadVocabularyIntoCache` (lines 83-173) guards an external
fetch with two maps: `cachedVocabs` (lines 20) and `loadingPromises`
(lines 22-23).  JavaScript is single threaded and the function performs the
cache check, the in-flight check, the fetch call and the
`loadingPromises.set` registration without an intervening `await`, so a
request is one atomic step; a load settling (the continuation after `await`,
or the `finally` microtask) is another.  The payload type of a cached
vocabulary is abstract (`V`). -/


/-- How one in-flight load settles: the fetch resolves with items, the fetch
rejects (caught and logged inside the async closure), or the closure returned
early (unknown key / missing dataset) without writing the cache. -/
inductive LoadOutcome (V : Type) where
  | success (v : V)
  | failure (err : String)
  | skipped

/-- The mutable cache state of `CompletionEngine`. -/
structure VocabCacheState (V : Type) where
  cachedVocabs : Rec V
  loadingPromises : List String
deriving DecidableEq, Repr

/-- The synchronous prefix of `loadVocabularyIntoCache(prefix)`: returns the
new state and whether this call issued the external fetch
(`vocabularies({ only: [prefix] })`).  `known` is the synchronous
`prefixes[prefix]` check. -/
def requestStep {V : Type} (known : String → Bool) (s : VocabCacheState V)
    (key : String) : VocabCacheState V × Bool :=
  if recHas s.cachedVocabs key then (s, false)
  else if s.loadingPromises.contains key then (s, false)
  else ({ s with loadingPromises := s.loadingPromises ++ [key] }, known key)

/-- A pending load settling: only a successful fetch writes the cache; in
every case the `finally` handler deletes the in-flight token. -/
def settleStep {V : Type} (s : VocabCacheState V) (key : String)
    (outcome : LoadOutcome V) : VocabCacheState V :=
  match outcome with
  | .success v =>
      { cachedVocabs := recSet s.cachedVocabs key v
        loadingPromises := s.loadingPromises.erase key }
  | .failure _ => { s with loadingPromises := s.loadingPromises.erase key }
  | .skipped => { s with loadingPromises := s.loadingPromises.erase key }

/-- `n` consecutive requests for the same key with no settle in between;
returns the final state and how many external fetches were issued. -/
def runRequests {V : Type} (known : String → Bool) (s : VocabCacheState V)
    (key : String) : Nat → VocabCacheState V × Nat
  | 0 => (s, 0)
  | n + 1 =>
      let r := requestStep known s key
      let rest := runRequests known r.1 key n
      (rest.1, (if r.2 then 1 else 0) + rest.2)

/-! ### The diagnostics pass (TurtleLanguageServer.basicDiagnostics, rich variant)

Embeds the per-line lint scan of the server (the variant with string/IRI/
comment sanitisation and the strict declared-prefix check), restricted to the
two claimed finding streams: missing-terminator warnings and
undeclared-prefix warnings.  `collectNamespaceEntries` is parser-dependent, so
the scan takes the namespace entries as a parameter.  Finding ranges are not
claim-relevant and are omitted; a finding is (line index) or
(line index, prefix group, suffix group). -/


/-- `prefix.length > 0 ? prefix : ":"` (`normalizePrefix`). -/
def normalizePfx (p : String) : String := if p.length > 0 then p else ":"

/-- The default well-known prefixes of the server (part of its source). -/
def defaultPrefixes : Rec String :=
  [("rdf", "http://www.w3.org/1999/02/22-rdf-syntax-ns#"),
   ("rdfs", "http://www.w3.org/2000/01/rdf-schema#"),
   ("owl", "http://www.w3.org/2002/07/owl#"),
   ("xsd", "http://www.w3.org/2001/XMLSchema#"),
   ("sh", "http://www.w3.org/ns/shacl#"),
   ("skos", "http://www.w3.org/2004/02/skos/core#"),
   ("dcterms", "http://purl.org/dc/terms/"),
   ("foaf", "http://xmlns.com/foaf/0.1/")]

/-- `buildPrefixMap`: the defaults overlaid with the document's declarations
(declarations win), keyed by normalized prefix. -/
def buildPrefixMap (entries : List NsEntry) : Rec String :=
  (collectNamespaceMap entries).foldl
    (fun m kv => recSet m (normalizePfx kv.1) kv.2) defaultPrefixes

/-- Lazy body of `"""(?:[^"\\]|\\.)*?"""` after the opening quotes: close at
the earliest triple quote; an escaped pair consumes two characters, a bare
quote or dangling backslash fails the alternative. -/
def lazyBody (q : Char) : Nat → List Char → Option (List Char)
  | 0, _ => none
  | fuel + 1, cs =>
      if cs.take 3 = [q, q, q] then some (cs.drop 3)
      else
        match cs with
        | [] => none
        | '\\' :: rest =>
            match rest with
            | [] => none
            | _ :: rest2 => lazyBody q fuel rest2
        | c :: rest => if c = q then none else lazyBody q fuel rest

/-- Try `"""…"""` (or `'''…'''`) at the head; returns the remainder. -/
def matchTriple (q : Char) (cs : List Char) : Option (List Char) :=
  if cs.take 3 = [q, q, q] then lazyBody q (cs.drop 3).length (cs.drop 3)
  else none

/-- Greedy body of `"(?:[^"\\]|\\.)*"`: deterministic since the units cannot
consume the closing quote. -/
def singleBody (q : Char) : Nat → List Char → Option (List Char)
  | 0, _ => none
  | fuel + 1, cs =>
      match cs with
      | [] => none
      | '\\' :: rest =>
          match rest with
          | [] => none
          | _ :: rest2 => singleBody q fuel rest2
      | c :: rest => if c = q then some rest else singleBody q fuel rest

/-- Try `"…"` (or `'…'`) at the head; returns the remainder. -/
def matchSingle (q : Char) (cs : List Char) : Option (List Char) :=
  match cs with
  | [] => none
  | c :: rest => if c = q then singleBody q rest.length rest else none

/-- Global replace of the string-literal alternation with the empty string,
alternatives tried in source order; on no match, keep one character and
advance.  Every match consumes at least two characters, so `fuel = cs.length`
suffices. -/
def stripStringsAux : Nat → List Char → List Char
  | 0, _ => []
  | _ + 1, [] => []
  | fuel + 1, c :: rest =>
      match matchTriple '"' (c :: rest) with
      | some r => stripStringsAux fuel r
      | none =>
        match matchTriple '\'' (c :: rest) with
        | some r => stripStringsAux fuel r
        | none =>
          match matchSingle '"' (c :: rest) with
          | some r => stripStringsAux fuel r
          | none =>
            match matchSingle '\'' (c :: rest) with
            | some r => stripStringsAux fuel r
            | none => c :: stripStringsAux fuel rest

def stripStrings (cs : List Char) : List Char := stripStringsAux cs.length cs

/-- Global replace of `<[^>]*>` with the empty string. -/
def stripIRIsAux : Nat → List Char → List Char
  | 0, _ => []
  | _ + 1, [] => []
  | fuel + 1, c :: rest =>
      if c = '<' then
        match rest.drop (rest.takeWhile (fun x => x ≠ '>')).length with
        | '>' :: r2 => stripIRIsAux fuel r2
        | _ => c :: stripIRIsAux fuel rest
      else c :: stripIRIsAux fuel rest

def stripIRIs (cs : List Char) : List Char := stripIRIsAux cs.length cs

/-- Replace `#.*$`: truncate at the first `#`. -/
def stripComment (cs : List Char) : List Char :=
  cs.takeWhile (fun x => x ≠ '#')

/-- The sanitisation chain of `basicDiagnostics`: strings, then IRIs, then
the line comment. -/
def sanitizeLine (trimmed : String) : List Char :=
  stripComment (stripIRIs (stripStrings trimmed.toList))

/-- `countChars(text, c)`. -/
def countChars (cs : List Char) (c : Char) : Nat :=
  (cs.filter (fun x => x = c)).length

/-- The terminator class of `/[.;,\]\)]\s*$/`. -/
def isTermCh (c : Char) : Bool :=
  c = '.' || c = ';' || c = ',' || c = ']' || c = ')'

/-- `/[.;,\]\)]\s*$/.test(sanitized)`. -/
def endsWithTerminator (cs : List Char) : Bool :=
  match cs.reverse.dropWhile isJsSpace with
  | [] => false
  | c :: _ => isTermCh c

/-- A match of `([A-Za-z0-9_\-]*):([A-Za-z0-9_\-]*)` anchored at the head:
greedy group runs around a mandatory `:`; both groups may be empty. -/
def pnTokenAt (cs : List Char) : Option (String × String × Nat) :=
  let w1 := cs.takeWhile isPNChar
  match cs.drop w1.length with
  | ':' :: r2 =>
      let w2 := r2.takeWhile isPNChar
      some (String.mk w1, String.mk w2, w1.length + 1 + w2.length)
  | _ => none

/-- `sanitized.matchAll(/([A-Za-z0-9_\-]*):([A-Za-z0-9_\-]*)/g)`: the matched
(prefix group, suffix group) pairs in scan order.  Every match is nonempty
(it contains the `:`), so `fuel = cs.length` suffices. -/
def scanPnTokens : Nat → List Char → List (String × String)
  | 0, _ => []
  | _ + 1, [] => []
  | fuel + 1, c :: rest =>
      match pnTokenAt (c :: rest) with
      | some m => (m.1, m.2.1) :: scanPnTokens fuel ((c :: rest).drop m.2.2)
      | none => scanPnTokens fuel rest

/-- Skip condition of the line loop:
`!trimmed || trimmed.startsWith("@") || trimmed.startsWith("#")`. -/
def skipLine (trimmed : String) : Prop :=
  trimmed.toList.isEmpty = true ∨ trimmed.toList.head? = some '@'
    ∨ trimmed.toList.head? = some '#'

instance (trimmed : String) : Decidable (skipLine trimmed) := by
  unfold skipLine
  infer_instance

/-- One line's missing-terminator emission test, given the depth counters
carried into the line. -/
def termEmit (bd pd : Nat) (sanitized : List Char) : Bool :=
  decide (bd + pd = 0)
    && decide
      (max 0 ((bd + pd : Int) + countChars sanitized '[' - countChars sanitized ']'
        + countChars sanitized '(' - countChars sanitized ')') = 0)
    && !endsWithTerminator sanitized
    && sanitized.any isJsSpace

/-- The per-line depth update (`Math.max(0, depth + opens - closes)`). -/
def depthStep (d : Nat × Nat) (line : String) : Nat × Nat :=
  let trimmed := jsTrim line
  if skipLine trimmed then d
  else
    let sanitized := sanitizeLine trimmed
    ((max 0 ((d.1 : Int) + countChars sanitized '[' - countChars sanitized ']')).toNat,
     (max 0 ((d.2 : Int) + countChars sanitized '(' - countChars sanitized ')')).toNat)

/-- The line loop of `basicDiagnostics`, producing the missing-terminator
line numbers and the undeclared-prefix findings (line, prefix, suffix), in
emission order, while threading the two depth counters. -/
def diagScan (declared : List String) (idx : Nat) (bd pd : Nat) :
    List String → List Nat × List (Nat × String × String)
  | [] => ([], [])
  | line :: rest =>
      let trimmed := jsTrim line
      if skipLine trimmed then diagScan declared (idx + 1) bd pd rest
      else
        let sanitized := sanitizeLine trimmed
        let uses := scanPnTokens sanitized.length sanitized
        let undecl := (uses.filter
            (fun u => !(declared.contains (normalizePfx u.1)))).map
          (fun u => (idx, u.1, u.2))
        let bd' := (max 0 ((bd : Int) + countChars sanitized '['
          - countChars sanitized ']')).toNat
        let pd' := (max 0 ((pd : Int) + countChars sanitized '('
          - countChars sanitized ')')).toNat
        let rest' := diagScan declared (idx + 1) bd' pd' rest
        ((if termEmit bd pd sanitized then [idx] else []) ++ rest'.1,
         undecl ++ rest'.2)

/-- The declared-prefix set used by the strict undeclared check. -/
def declaredSet (entries : List NsEntry) : List String :=
  entries.map (fun e => normalizePfx e.pfx)

/-- The missing-terminator findings of `basicDiagnostics`. -/
def basicDiagnosticsTerm (entries : List NsEntry) (text : String) : List Nat :=
  (diagScan (declaredSet entries) 0 0 0 (splitLines text)).1

/-- The undeclared-prefix findings of `basicDiagnostics`. -/
def basicDiagnosticsUndecl (entries : List NsEntry) (text : String) :
    List (Nat × String × String) :=
  (diagScan (declaredSet entries) 0 0 0 (splitLines text)).2

/-! ### Text documents and the navigation engine (rename)

`TextDocument` is modelled as its full text; `offsetAt`/`positionAt`/ranged
`getText` follow the vscode-languageserver-textdocument implementation
(line/character coordinates, offsets clamped to the line).  The file system is
a parameter `readFile : String → Option String` (`none` = unreadable);
`toFsPath` is simplified to dropping the `file://` scheme, which agrees with
the URL/normalize library calls for plain absolute paths. -/


/-- Offsets of each line start (`computeLineOffsets`): 0 and the offset after
every `\r\n`, `\r` or `\n`. -/
def lineOffsetsAux : List Char → Nat → List Nat
  | [], _ => []
  | '\r' :: '\n' :: rest, i => (i + 2) :: lineOffsetsAux rest (i + 2)
  | '\r' :: rest, i => (i + 1) :: lineOffsetsAux rest (i + 1)
  | '\n' :: rest, i => (i + 1) :: lineOffsetsAux rest (i + 1)
  | _ :: rest, i => lineOffsetsAux rest (i + 1)

def lineOffsets (text : String) : List Nat := 0 :: lineOffsetsAux text.toList 0

/-- `TextDocument.offsetAt(position)`. -/
def offsetAt (text : String) (pos : Pos) : Nat :=
  let offsets := lineOffsets text
  if pos.line ≥ offsets.length then text.length
  else
    let lineOffset := offsets.getD pos.line 0
    let nextLineOffset :=
      if pos.line + 1 < offsets.length then offsets.getD (pos.line + 1) 0 else text.length
    max (min (lineOffset + pos.character) nextLineOffset) lineOffset

/-- `TextDocument.positionAt(offset)`: the greatest line start not past the
clamped offset (line starts are strictly increasing, so it is the last one). -/
def positionAt (text : String) (offset : Nat) : Pos :=
  let off := min offset text.length
  let offsets := lineOffsets text
  let line := (offsets.filter (fun o => o ≤ off)).length - 1
  { line := line, character := off - (offsets.filter (fun o => o ≤ off)).getLast?.getD 0 }

/-- `doc.getText({ start, end })` = `text.substring(offsetAt start, offsetAt end)`. -/
def getTextRange (text : String) (r : Range) : String :=
  let s := offsetAt text r.startPos
  let e := offsetAt text r.endPos
  String.mk ((text.toList.drop s).take (e - s))

/-- The word-character class `/[\w:]/` of `currentWordRange` (no `-`). -/
def isCurWordChar (c : Char) : Bool :=
  isAsciiAlpha c || (decide ('0' ≤ c) && decide (c ≤ '9')) || c = '_' || c = ':'

/-- `currentWordRange(doc, position)` (util): widen from the cursor offset in
both directions over `[\w:]` characters. -/
def currentWordRange (text : String) (position : Pos) : Range :=
  let offset := offsetAt text position
  let safeOffset := min offset text.length
  let cs := text.toList
  let start := safeOffset - ((cs.take safeOffset).reverse.takeWhile isCurWordChar).length
  let stop := safeOffset + ((cs.drop safeOffset).takeWhile isCurWordChar).length
  { startPos := positionAt text start, endPos := positionAt text stop }

/-- `currentWord(doc, position)` (util): the text in the word range, `null`
when empty. -/
def currentWord (text : String) (position : Pos) : Option String :=
  let w := getTextRange text (currentWordRange text position)
  if w.isEmpty then none else some w

/-- `toFsPath(uri)` for plain `file://` uris. -/
def toFsPath (uri : String) : String :=
  if "file://".toList.isPrefixOf uri.toList then String.mk (uri.toList.drop 7) else uri

/-- `rangeMatchesWord(uri, range, word, doc)` (util, lines 75-90): validate a
candidate location against the live text.  An open document is read at the
exact range; otherwise a `file://` uri is read from disk and the start line
sliced — but an unreadable or EMPTY file (`if (!content) return true`), or a
non-`file://` uri, validates unconditionally. -/
def rangeMatchesWord (readFile : String → Option String) (uri : String)
    (range : Range) (word : String) (docText : Option String) : Bool :=
  match docText with
  | some text => getTextRange text range == word
  | none =>
    if "file://".toList.isPrefixOf uri.toList then
      match readFile (toFsPath uri) with
      | none => true
      | some content =>
        if content.isEmpty then true
        else
          let startLine := (splitLines content).getD range.startPos.line ""
          let snippet := String.mk ((startLine.toList.drop range.startPos.character).take
            (range.endPos.character - range.startPos.character))
          snippet == word
    else true

/-- `Indexer.getPrefixes(word)`: `return this.prefixIndex[word] || []`. -/
def getPrefixes (s : IndexerState) (word : String) : List Location :=
  (recGet s.prefixIndex word).getD []

/-- `Indexer.getSubjects(word)`. -/
def getSubjects (s : IndexerState) (word : String) : List Location :=
  (recGet s.subjectIndex word).getD []

/-- `Indexer.getSymbols(word)`. -/
def getSymbols (s : IndexerState) (word : String) : List Location :=
  (recGet s.symbolIndex word).getD []

/-- One entry of a `WorkspaceEdit`'s `changes[uri]` list. -/
structure RenameEdit where
  range : Range
  newText : String
deriving DecidableEq, Repr

/-- The `addEdits` closure of `NavigationEngine.rename`: push an edit per
validated candidate location, grouped by uri. -/
def addEdits (readFile : String → Option String) (documents : Rec String)
    (word newName : String) (changes : Rec (List RenameEdit))
    (list : List Location) : Rec (List RenameEdit) :=
  list.foldl (fun ch loc =>
    if rangeMatchesWord readFile loc.uri loc.range word (recGet documents loc.uri) then
      recSet ch loc.uri (((recGet ch loc.uri).getD []) ++
        [({ range := loc.range, newText := newName } : RenameEdit)])
    else ch) changes

/-- The candidate locations `rename` consults, in source order: subjects,
prefixes, the colon-trimmed prefix lookup, symbols. -/
def renameCandidates (s : IndexerState) (word : String) : List Location :=
  getSubjects s word ++ getPrefixes s word ++
    (if word.toList.getLast? = some ':'
     then getPrefixes s (String.mk word.toList.dropLast) else []) ++
    getSymbols s word

/-- `NavigationEngine.rename(params)` (lines 492-519). -/
def rename (readFile : String → Option String) (s : IndexerState)
    (documents : Rec String) (uri : String) (position : Pos) (newName : String) :
    Option (Rec (List RenameEdit)) :=
  match recGet documents uri with
  | none => none
  | some text =>
    match currentWord text position with
    | none => none
    | some word =>
      let changes := addEdits readFile documents word newName [] (renameCandidates s word)
      if changes.isEmpty then none else some changes

/-! ### The completion engine (src/completion.ts, async variant, build lines 176-287)

A completion item is modelled by the fields ranking and deduplication read:
`label`, `kind` and `sortText`; the payload fields (`textEdit`, `insertText`,
`detail`, `documentation`, `data`) never influence order or dedup and are
omitted.  The external stardog vocabulary items and the vocabulary cache are
parameters; the cache parameter is the state after the awaited on-demand load.
`localeCompare` is modelled as code-point lexicographic comparison (the two
agree on the comparisons the claims turn on, which differ within the ASCII
digit bucket prefix), and the engine's stable `Array.sort` as an insertion
sort — after label dedup all sort keys are distinct, so every comparison sort
produces the same list. -/


/-- The `CompletionItemKind`s the ranking logic distinguishes. -/
inductive ItemKind where
  | keyword
  | reference
  | classKind
  | propertyKind
  | other
deriving DecidableEq, Repr

/-- A completion item, restricted to the ranking-relevant fields. -/
structure CItem where
  label : String
  kind : ItemKind
  sortText : Option String
deriving DecidableEq, Repr

/-- `toLowerCase`, per character (ASCII-faithful). -/
def toLowerStr (s : String) : String := String.mk (s.toList.map Char.toLower)

/-- Code-point lexicographic ≤ on character lists (the `localeCompare` model). -/
def localeLe : List Char → List Char → Bool
  | [], _ => true
  | _ :: _, [] => false
  | c1 :: r1, c2 :: r2 =>
      if c1.toNat = c2.toNat then localeLe r1 r2 else decide (c1.toNat < c2.toNat)

def localeLeStr (a b : String) : Bool := localeLe a.toList b.toList

/-- `extractPrefix(token)` (util): group 1 of `/^([A-Za-z][\w-]*):/`, else `""`. -/
def extractPfx (token : String) : String :=
  match token.toList with
  | [] => ""
  | c :: rest =>
    if isAsciiAlpha c then
      let w1 := rest.takeWhile isPNChar
      match rest.drop w1.length with
      | ':' :: _ => String.mk (c :: w1)
      | _ => ""
    else ""

/-- Leftmost match of `/([A-Za-z][\w-]*):[\w-]*$/`, returning group 1. -/
def detectAux : Nat → List Char → Option String
  | 0, _ => none
  | _ + 1, [] => none
  | fuel + 1, c :: rest =>
      let here : Option String :=
        if isAsciiAlpha c then
          let w1 := rest.takeWhile isPNChar
          match rest.drop w1.length with
          | ':' :: r2 => if r2.all isPNChar then some (String.mk (c :: w1)) else none
          | _ => none
        else none
      match here with
      | some g => some g
      | none => detectAux fuel rest

/-- `detectPrefixAtPosition(doc, position, currentToken)` (util). -/
def detectPrefixAtPosition (text : String) (position : Pos) (currentToken : String) : String :=
  let direct := extractPfx currentToken
  if direct ≠ "" then direct
  else
    let lineText := getTextRange text ⟨⟨position.line, 0⟩, position⟩
    (detectAux lineText.toList.length lineText.toList).getD ""

/-- Insertion-order set dedup (JavaScript `Set` iteration order). -/
def dedupFirstAux : Nat → List String → List String
  | 0, _ => []
  | _ + 1, [] => []
  | fuel + 1, x :: xs => x :: dedupFirstAux fuel (xs.filter (fun y => y ≠ x))

def dedupFirst (l : List String) : List String := dedupFirstAux l.length l

/-- `CompletionEngine.collectSubjectSet(text)`: the first token of every
non-`@`/`#` line, as an insertion-ordered set. -/
def collectSubjectSet (text : String) : List String :=
  dedupFirst (((splitLines text).map (fun line =>
    let trimmed := jsTrim line
    if skipLine trimmed then []
    else
      match matchSubject trimmed.toList with
      | some label => [label]
      | none => [])).flatten)

/-- `abbreviateWithPrefixes(value, map)` (util): abbreviate a full IRI by the
first namespace entry whose base is a proper prefix of it. -/
def abbreviateWithPrefixes (value : String) (map : Rec String) : String :=
  if !("http://".isPrefixOf value || "https://".isPrefixOf value) then value
  else
    match map.find? (fun kv => kv.2.isPrefixOf value && decide (kv.2.length < value.length)) with
    | some kv => kv.1 ++ ":" ++ String.mk (value.toList.drop kv.2.length)
    | none => value

/-- `Indexer.collectGlobalSubjects(prefixFilter)` (src/indexer.ts lines 44-51). -/
def collectGlobalSubjects (s : IndexerState) (prefixFilter : String) : List String :=
  (recKeys s.subjectIndex).filter (fun label =>
    !(decide (prefixFilter ≠ "") && decide (extractPfx label ≠ "")
      && decide (extractPfx label ≠ prefixFilter)))

/-- `vocabFromPrefix(currentPrefix, …)`: the cached items of the active
prefix (after the awaited load), or every cached vocabulary in fuzzy mode. -/
def vocabFromPrefix (cachedVocabs : Rec (List CItem)) (currentPfx : String) : List CItem :=
  if currentPfx ≠ "" then (recGet cachedVocabs currentPfx).getD []
  else (cachedVocabs.map (fun kv => kv.2)).flatten

/-- The fixed syntax-keyword items of `build`. -/
def keywordItems : List CItem :=
  [⟨"@prefix", ItemKind.keyword, none⟩, ⟨"@base", ItemKind.keyword, none⟩,
   ⟨"a", ItemKind.keyword, none⟩, ⟨"BASE", ItemKind.keyword, none⟩,
   ⟨"PREFIX", ItemKind.keyword, none⟩]

/-- The bucket strategy of `build` (lines 250-269). -/
def assignBucket (currentPfx queryLower : String) (item : CItem) : String :=
  let labelLower := toLowerStr item.label
  let itemPfx := extractPfx item.label
  if currentPfx ≠ "" ∧ itemPfx = currentPfx then
    (if queryLower.toList.isPrefixOf labelLower.toList then "005" else "010")
  else if currentPfx = "" ∧ queryLower.toList.isPrefixOf labelLower.toList then "020"
  else if item.kind = ItemKind.reference then "050"
  else if item.kind = ItemKind.keyword then "100"
  else "900"

/-- Dedup by label, first occurrence wins (lines 277-284). -/
def dedupByLabelAux : Nat → List CItem → List CItem
  | 0, _ => []
  | _ + 1, [] => []
  | fuel + 1, x :: xs => x :: dedupByLabelAux fuel (xs.filter (fun y => y.label ≠ x.label))

def dedupByLabel (l : List CItem) : List CItem := dedupByLabelAux l.length l

/-- The sort comparator: `localeCompare` on `sortText`. -/
def completionLe (a b : CItem) : Bool :=
  localeLeStr (a.sortText.getD "") (b.sortText.getD "")

/-- Insert into a sorted list (before the first element it compares ≤ to). -/
def insertSorted {α : Type} (le : α → α → Bool) (x : α) : List α → List α
  | [] => [x]
  | y :: ys => if le x y then x :: y :: ys else y :: insertSorted le x ys

/-- Comparison sort; models the engine's final `Array.sort`. -/
def insertionSort {α : Type} (le : α → α → Bool) : List α → List α
  | [] => []
  | x :: xs => insertSorted le x (insertionSort le xs)

/-- The candidate list of `CompletionEngine.build` with sort keys assigned,
before deduplication and sorting (lines 176-275). -/
def buildItems (s : IndexerState) (commonVocabItems : List CItem)
    (cachedVocabs : Rec (List CItem)) (text : String) (position : Pos)
    (namespaces : List NsEntry) (namespaceMap : Rec String) : List CItem :=
  let subjectSet := collectSubjectSet text
  let current := (currentWord text position).getD ""
  let currentPfx := detectPrefixAtPosition text position current
  let globalSubjects := collectGlobalSubjects s currentPfx
  let prefixItems : List CItem :=
    namespaces.map (fun ns => ⟨ns.pfx ++ ":", ItemKind.keyword, none⟩)
  let subjectItems : List CItem :=
    (dedupFirst (subjectSet ++ globalSubjects)).map
      (fun subj => ⟨abbreviateWithPrefixes subj namespaceMap, ItemKind.reference, none⟩)
  let vocabItems := commonVocabItems ++ vocabFromPrefix cachedVocabs currentPfx
  let allItems := vocabItems ++ subjectItems ++ prefixItems ++ keywordItems
  let queryLower := toLowerStr current
  allItems.map (fun item =>
    { item with sortText := some (assignBucket currentPfx queryLower item ++ "_" ++ item.label) })

/-- `CompletionEngine.build(params, doc, namespaces, namespaceMap)`. -/
def build (s : IndexerState) (commonVocabItems : List CItem)
    (cachedVocabs : Rec (List CItem)) (text : String) (position : Pos)
    (namespaces : List NsEntry) (namespaceMap : Rec String) : List CItem :=
  insertionSort completionLe (dedupByLabel
    (buildItems s commonVocabItems cachedVocabs text position namespaces namespaceMap))

/-! ### C10: frame property for other documents -/


/-- The operation touching document `d` leaves document `d'` untouched:
`d'`'s cache record is unchanged and, for every label, the sublist of its
locations (in order) is unchanged in all three indexes. -/
def framePreserved (s sAfter : IndexerState) (d' : String) : Prop :=
  recGet sAfter.docCache d' = recGet s.docCache d' ∧
  ∀ label,
    (getPrefixes sAfter label).filter (fun l => l.uri = d')
      = (getPrefixes s label).filter (fun l => l.uri = d') ∧
    (getSubjects sAfter label).filter (fun l => l.uri = d')
      = (getSubjects s label).filter (fun l => l.uri = d') ∧
    (getSymbols sAfter label).filter (fun l => l.uri = d')
      = (getSymbols s label).filter (fun l => l.uri = d')

theorem nodupKeys_nil {α : Type} : nodupKeys ([] : Rec α) := List.nodup_nil

theorem recGet_eq_none {α : Type} (m : Rec α) (k : String) :
    recGet m k = none ↔ k ∉ recKeys m := by
  induction m with
  | nil => simp [recGet, recKeys]
  | cons e rest ih =>
    by_cases h : e.1 = k
    · simp [recGet, recKeys, h]
    · simp [recGet, recKeys, h, ih, Ne.symm h]

theorem recGet_recSet_self {α : Type} (m : Rec α) (k : String) (v : α) :
    recGet (recSet m k v) k = some v := by
  induction m with
  | nil => simp [recSet, recGet]
  | cons e rest ih =>
    by_cases h : e.1 = k
    · simp [recSet, recGet, h]
    · simp [recSet, recGet, h, ih]

theorem recGet_recSet_ne {α : Type} (m : Rec α) (k k' : String) (v : α) (h : k ≠ k') :
    recGet (recSet m k v) k' = recGet m k' := by
  induction m with
  | nil => simp [recSet, recGet, h]
  | cons e rest ih =>
    by_cases he : e.1 = k
    · simp [recSet, recGet, he, h]
    · by_cases he' : e.1 = k'
      · simp [recSet, recGet, he, he', Ne.symm h]
      · simp [recSet, recGet, he, he', ih]

theorem recGet_recDelete_self {α : Type} (m : Rec α) (k : String) (hm : nodupKeys m) :
    recGet (recDelete m k) k = none := by
  induction m with
  | nil => simp [recDelete, recGet]
  | cons e rest ih =>
    simp only [nodupKeys, recKeys, List.map_cons, List.nodup_cons] at hm
    by_cases h : e.1 = k
    · simp only [recDelete, if_pos h]
      rw [recGet_eq_none, ← h]
      exact hm.1
    · simp only [recDelete, if_neg h, recGet, if_neg h]
      exact ih hm.2

theorem recGet_recDelete_ne {α : Type} (m : Rec α) (k k' : String) (h : k ≠ k') :
    recGet (recDelete m k) k' = recGet m k' := by
  induction m with
  | nil => simp [recDelete]
  | cons e rest ih =>
    by_cases he : e.1 = k
    · simp [recDelete, recGet, he, h]
    · by_cases he' : e.1 = k'
      · simp [recDelete, recGet, he, he', Ne.symm h]
      · simp [recDelete, recGet, he, he', ih]

theorem recKeys_recSet {α : Type} (m : Rec α) (k : String) (v : α) :
    recKeys (recSet m k v) = if recHas m k then recKeys m else recKeys m ++ [k] := by
  induction m with
  | nil => simp [recSet, recKeys, recHas]
  | cons e rest ih =>
    by_cases h : e.1 = k
    · simp [recSet, recKeys, recHas, h]
    · simp only [recSet, if_neg h, recKeys, List.map_cons, recHas]
      rw [show ((decide (e.1 = k) || recHas rest k) = recHas rest k) by simp [h]]
      by_cases hh : recHas rest k
      · simp only [recKeys] at ih
        simp [hh, ih]
      · simp only [recKeys] at ih
        simp [hh, ih]

theorem recHas_iff_mem {α : Type} (m : Rec α) (k : String) :
    recHas m k = true ↔ k ∈ recKeys m := by
  induction m with
  | nil => simp [recHas, recKeys]
  | cons e rest ih =>
    simp only [recHas, Bool.or_eq_true, decide_eq_true_eq, recKeys, List.map_cons,
      List.mem_cons, ih]
    constructor
    · rintro (hx | hx)
      · exact Or.inl hx.symm
      · exact Or.inr hx
    · rintro (hx | hx)
      · exact Or.inl hx.symm
      · exact Or.inr hx

theorem nodupKeys_recSet {α : Type} (m : Rec α) (k : String) (v : α) (hm : nodupKeys m) :
    nodupKeys (recSet m k v) := by
  unfold nodupKeys
  rw [recKeys_recSet]
  by_cases h : recHas m k = true
  · simpa [h] using hm
  · have hk : k ∉ recKeys m := fun hmem => h ((recHas_iff_mem m k).2 hmem)
    rw [if_neg (by simpa using h)]
    refine List.Nodup.append hm (List.nodup_singleton _) ?_
    intro a ha hb
    simp only [List.mem_singleton] at hb
    subst hb
    exact hk ha

theorem recKeys_recDelete_sublist {α : Type} (m : Rec α) (k : String) :
    (recKeys (recDelete m k)).Sublist (recKeys m) := by
  induction m with
  | nil => simp [recDelete]
  | cons e rest ih =>
    by_cases h : e.1 = k
    · simp only [recDelete, if_pos h, recKeys, List.map_cons]
      exact (List.sublist_cons_self _ _)
    · simp only [recDelete, if_neg h, recKeys, List.map_cons]
      exact List.Sublist.cons₂ _ ih

theorem nodupKeys_recDelete {α : Type} (m : Rec α) (k : String) (hm : nodupKeys m) :
    nodupKeys (recDelete m k) :=
  (recKeys_recDelete_sublist m k).nodup hm

theorem nodupKeys_recPush (m : Rec (List Location)) (k : String) (v : Location)
    (hm : nodupKeys m) : nodupKeys (recPush m k v) :=
  nodupKeys_recSet m k _ hm

theorem recGet_recPush_self (m : Rec (List Location)) (k : String) (v : Location) :
    recGet (recPush m k v) k = some (((recGet m k).getD []) ++ [v]) :=
  recGet_recSet_self m k _

theorem recGet_recPush_ne (m : Rec (List Location)) (k k' : String) (v : Location)
    (h : k ≠ k') : recGet (recPush m k v) k' = recGet m k' :=
  recGet_recSet_ne m k k' _ h

theorem filterErase_none (uri : String) : filterErase none uri = none := rfl

theorem filterErase_some (locs : List Location) (uri : String) :
    filterErase (some locs) uri =
      if (locs.filter (fun loc => loc.uri ≠ uri)).isEmpty then none
      else some (locs.filter (fun loc => loc.uri ≠ uri)) := rfl

theorem filter_uri_idem (locs : List Location) (uri : String) :
    (locs.filter (fun loc => loc.uri ≠ uri)).filter (fun loc => loc.uri ≠ uri)
      = locs.filter (fun loc => loc.uri ≠ uri) :=
  List.filter_eq_self.mpr (fun _ hx => (List.mem_filter.1 hx).2)

theorem filterErase_idem (o : Option (List Location)) (uri : String) :
    filterErase (filterErase o uri) uri = filterErase o uri := by
  cases o with
  | none => rfl
  | some locs =>
    rw [filterErase_some]
    by_cases h : (locs.filter (fun loc => loc.uri ≠ uri)).isEmpty
    · rw [if_pos h]
      rfl
    · rw [if_neg h, filterErase_some, filter_uri_idem, if_neg h]

theorem recGet_removeEntry (idx : Rec (List Location)) (hm : nodupKeys idx)
    (uri label label' : String) :
    recGet (removeEntry idx uri label) label' =
      if label = label' then filterErase (recGet idx label') uri
      else recGet idx label' := by
  unfold removeEntry
  by_cases heq : label = label'
  · subst heq
    rw [if_pos rfl]
    cases hget : recGet idx label with
    | none => simp only [hget, filterErase_none]
    | some locs =>
      simp only [hget, filterErase_some]
      by_cases h : (locs.filter (fun loc => loc.uri ≠ uri)).isEmpty
      · rw [if_pos h, if_pos h]
        exact recGet_recDelete_self idx label hm
      · rw [if_neg h, if_neg h]
        exact recGet_recSet_self idx label _
  · rw [if_neg heq]
    cases hget : recGet idx label with
    | none => simp only [hget]
    | some locs =>
      simp only [hget]
      by_cases h : (locs.filter (fun loc => loc.uri ≠ uri)).isEmpty
      · rw [if_pos h]
        exact recGet_recDelete_ne idx label label' heq
      · rw [if_neg h]
        exact recGet_recSet_ne idx label label' _ heq

theorem nodupKeys_removeEntry (idx : Rec (List Location)) (uri label : String)
    (hm : nodupKeys idx) : nodupKeys (removeEntry idx uri label) := by
  cases hget : recGet idx label with
  | none => simpa only [removeEntry, hget] using hm
  | some locs =>
    simp only [removeEntry, hget]
    by_cases h : (locs.filter (fun loc => loc.uri ≠ uri)).isEmpty
    · rw [if_pos h]
      exact nodupKeys_recDelete idx label hm
    · rw [if_neg h]
      exact nodupKeys_recSet idx label _ hm

theorem nodupKeys_removeAll (idx : Rec (List Location)) (uri : String)
    (entries : List (String × Range)) (hm : nodupKeys idx) :
    nodupKeys (removeAll idx uri entries) := by
  induction entries generalizing idx with
  | nil => exact hm
  | cons e rest ih => exact ih _ (nodupKeys_removeEntry idx uri e.1 hm)

theorem nodupKeys_insertAll (idx : Rec (List Location)) (uri : String)
    (entries : List (String × Range)) (hm : nodupKeys idx) :
    nodupKeys (insertAll idx uri entries) := by
  induction entries generalizing idx with
  | nil => exact hm
  | cons e rest ih => exact ih _ (nodupKeys_recPush idx e.1 _ hm)

theorem recGet_removeAll (idx : Rec (List Location)) (hm : nodupKeys idx)
    (uri : String) (entries : List (String × Range)) (label : String) :
    recGet (removeAll idx uri entries) label =
      if entries.any (fun e => e.1 = label) then filterErase (recGet idx label) uri
      else recGet idx label := by
  induction entries generalizing idx with
  | nil => simp [removeAll]
  | cons e rest ih =>
    have hstep := recGet_removeEntry idx hm uri e.1 label
    have hnd := nodupKeys_removeEntry idx uri e.1 hm
    show recGet (removeAll (removeEntry idx uri e.1) uri rest) label = _
    rw [ih _ hnd, hstep]
    by_cases he : e.1 = label
    · by_cases hr : rest.any (fun x => x.1 = label)
      · simp [he, hr, filterErase_idem]
      · simp [he, hr]
    · by_cases hr : rest.any (fun x => x.1 = label)
      · simp [he, hr]
      · simp [he, hr]

theorem recGet_insertAll (idx : Rec (List Location)) (uri : String)
    (entries : List (String × Range)) (label : String) :
    recGet (insertAll idx uri entries) label =
      appendOpt (recGet idx label)
        ((entries.filter (fun e => e.1 = label)).map
          (fun e => ({ uri := uri, range := e.2 } : Location))) := by
  induction entries generalizing idx with
  | nil => simp [insertAll, appendOpt]
  | cons e rest ih =>
    show recGet (insertAll (recPush idx e.1 ⟨uri, e.2⟩) uri rest) label = _
    rw [ih]
    by_cases he : e.1 = label
    · subst he
      rw [recGet_recPush_self]
      simp only [List.filter_cons, decide_True, List.map_cons, appendOpt]
      by_cases hr : ((rest.filter (fun x => x.1 = e.1)).map
          (fun x => ({ uri := uri, range := x.2 } : Location))).isEmpty
      · rw [List.isEmpty_iff] at hr
        simp [hr, appendOpt]
      · simp only [hr, if_false, Bool.false_eq_true, List.isEmpty_cons, Option.getD_some]
        rw [if_neg (by simp)]
        cases hbase : recGet idx e.1 <;> simp [List.append_assoc]
    · rw [recGet_recPush_ne idx e.1 label _ he]
      simp [List.filter_cons, he]

/-! ### Destructors for the pointwise descriptions -/
theorem filterErase_eq_some {o : Option (List Location)} {uri : String}
    {l : List Location} (h : filterErase o uri = some l) :
    ∃ locs, o = some locs ∧ l = locs.filter (fun loc => loc.uri ≠ uri) ∧ l ≠ [] := by
  cases o with
  | none => cases h
  | some locs =>
    rw [filterErase_some] at h
    by_cases he : (locs.filter (fun loc => loc.uri ≠ uri)).isEmpty
    · rw [if_pos he] at h; cases h
    · rw [if_neg he] at h
      refine ⟨locs, rfl, (Option.some.inj h).symm, ?_⟩
      rw [← Option.some.inj h]
      intro hnil
      exact he (by rw [hnil] ; rfl)

theorem filterErase_of_mem {locs : List Location} {uri : String} {loc : Location}
    (hmem : loc ∈ locs) (hne : loc.uri ≠ uri) :
    ∃ l, filterErase (some locs) uri = some l ∧ loc ∈ l := by
  have hmemf : loc ∈ locs.filter (fun x => x.uri ≠ uri) :=
    List.mem_filter.2 ⟨hmem, by simpa using hne⟩
  have hnonempty : ¬(locs.filter (fun x => x.uri ≠ uri)).isEmpty := by
    rw [List.isEmpty_iff]
    intro hnil
    rw [hnil] at hmemf
    cases hmemf
  rw [filterErase_some, if_neg hnonempty]
  exact ⟨_, rfl, hmemf⟩

theorem appendOpt_eq_some {o : Option (List Location)} {newLocs l : List Location}
    (h : appendOpt o newLocs = some l) : l = o.getD [] ++ newLocs ∨ o = some l := by
  unfold appendOpt at h
  by_cases he : newLocs.isEmpty
  · rw [if_pos he] at h
    exact Or.inr h
  · rw [if_neg he] at h
    exact Or.inl (Option.some.inj h).symm

theorem appendOpt_mem_cases {o : Option (List Location)} {newLocs l : List Location}
    {loc : Location} (h : appendOpt o newLocs = some l) (hmem : loc ∈ l) :
    (∃ ol, o = some ol ∧ loc ∈ ol) ∨ loc ∈ newLocs := by
  rcases appendOpt_eq_some h with heq | heq
  · subst heq
    rcases List.mem_append.1 hmem with hl | hl
    · cases ho : o with
      | none => rw [ho] at hl; cases hl
      | some ol => rw [ho] at hl; exact Or.inl ⟨ol, rfl, hl⟩
    · exact Or.inr hl
  · exact Or.inl ⟨l, heq, hmem⟩

theorem appendOpt_of_mem_base {o : Option (List Location)} {newLocs ol : List Location}
    {loc : Location} (ho : o = some ol) (hmem : loc ∈ ol) :
    ∃ l, appendOpt o newLocs = some l ∧ loc ∈ l := by
  subst ho
  unfold appendOpt
  by_cases he : newLocs.isEmpty
  · rw [if_pos he]
    exact ⟨ol, rfl, hmem⟩
  · rw [if_neg he]
    exact ⟨_, rfl, List.mem_append.2 (Or.inl hmem)⟩

theorem appendOpt_of_mem_new {o : Option (List Location)} {newLocs : List Location}
    {loc : Location} (hmem : loc ∈ newLocs) :
    ∃ l, appendOpt o newLocs = some l ∧ loc ∈ l := by
  unfold appendOpt
  have hne : ¬newLocs.isEmpty := by
    rw [List.isEmpty_iff]
    intro hnil
    rw [hnil] at hmem
    cases hmem
  rw [if_neg hne]
  exact ⟨_, rfl, List.mem_append.2 (Or.inr hmem)⟩

theorem wfState_empty : wfState emptyState := by
  refine ⟨⟨⟨?_, ?_⟩, ⟨?_, ?_⟩, ⟨?_, ?_⟩⟩, ?_, ?_, ?_, ?_, ?_, ?_, ?_⟩ <;>
    first
      | exact nodupKeys_nil
      | (intro x y h; cases h)

/-- Removal of one document's contribution from one index preserves that
index's consistency, relative to deleting the document's cache record. -/
theorem idxConsistent_removeAll
    {idx : Rec (List Location)} {cache : Rec DocCache}
    {proj : DocCache → List (String × Range)}
    (hmi : nodupKeys idx) (hmc : nodupKeys cache) {uri : String} {c : DocCache}
    (hc : recGet cache uri = some c)
    (h : idxConsistent idx proj cache) :
    idxConsistent (removeAll idx uri (proj c)) proj (recDelete cache uri) := by
  constructor
  · intro label locs' hget loc hmem
    rw [recGet_removeAll idx hmi uri (proj c) label] at hget
    by_cases hcov : (proj c).any (fun e => e.1 = label)
    · rw [if_pos hcov] at hget
      rcases filterErase_eq_some hget with ⟨locs, hlocs, hfil, -⟩
      subst hfil
      have hmem' := List.mem_filter.1 hmem
      have hne : loc.uri ≠ uri := by simpa using hmem'.2
      rcases h.1 label locs hlocs loc hmem'.1 with ⟨c'', hc'', hin⟩
      exact ⟨c'', by rw [recGet_recDelete_ne cache uri loc.uri (fun hx => hne hx.symm)]; exact hc'', hin⟩
    · rw [if_neg hcov] at hget
      rcases h.1 label locs' hget loc hmem with ⟨c'', hc'', hin⟩
      have hne : loc.uri ≠ uri := by
        intro heqr
        rw [heqr, hc] at hc''
        cases hc''
        exact hcov (List.any_eq_true.2 ⟨(label, loc.range), hin, by simp⟩)
      exact ⟨c'', by rw [recGet_recDelete_ne cache uri loc.uri (fun hx => hne hx.symm)]; exact hc'', hin⟩
  · intro uri' c' hget e hmem
    have hne : uri' ≠ uri := by
      intro heq
      subst heq
      rw [recGet_recDelete_self cache uri' hmc] at hget
      cases hget
    rw [recGet_recDelete_ne cache uri uri' (fun hx => hne hx.symm)] at hget
    rcases h.2 uri' c' hget e hmem with ⟨locs, hlocs, hin⟩
    rw [recGet_removeAll idx hmi uri (proj c) e.1]
    by_cases hcov : (proj c).any (fun x => x.1 = e.1)
    · rw [if_pos hcov, hlocs]
      exact filterErase_of_mem hin (by simpa using hne)
    · rw [if_neg hcov]
      exact ⟨locs, hlocs, hin⟩

/-- Removal also preserves consistency of an index when the document has no
cache record at all (every index entry then belongs to another document). -/
theorem idxConsistent_recDelete_of_none
    {idx : Rec (List Location)} {cache : Rec DocCache}
    {proj : DocCache → List (String × Range)}
    (hmc : nodupKeys cache) {uri : String}
    (hc : recGet cache uri = none)
    (h : idxConsistent idx proj cache) :
    idxConsistent idx proj (recDelete cache uri) := by
  constructor
  · intro label locs hget loc hmem
    rcases h.1 label locs hget loc hmem with ⟨c'', hc'', hin⟩
    have hne : loc.uri ≠ uri := by
      intro heqr
      rw [heqr, hc] at hc''
      cases hc''
    exact ⟨c'', by rw [recGet_recDelete_ne cache uri loc.uri (fun hx => hne hx.symm)]; exact hc'', hin⟩
  · intro uri' c' hget e hmem
    have hne : uri' ≠ uri := by
      intro heq
      subst heq
      rw [recGet_recDelete_self cache uri' hmc] at hget
      cases hget
    rw [recGet_recDelete_ne cache uri uri' (fun hx => hne hx.symm)] at hget
    exact h.2 uri' c' hget e hmem

/-- Insertion of a fresh document's contribution into one index preserves that
index's consistency, relative to storing the document's new cache record. -/
theorem idxConsistent_insertAll
    {idx : Rec (List Location)} {cache : Rec DocCache}
    {proj : DocCache → List (String × Range)} {uri : String} {c : DocCache}
    (hnone : recGet cache uri = none)
    (hnouri : ∀ label locs, recGet idx label = some locs → ∀ loc ∈ locs, loc.uri ≠ uri)
    (h : idxConsistent idx proj cache) :
    idxConsistent (insertAll idx uri (proj c)) proj (recSet cache uri c) := by
  constructor
  · intro label locs' hget loc hmem
    rw [recGet_insertAll idx uri (proj c) label] at hget
    rcases appendOpt_mem_cases hget hmem with ⟨ol, hol, hin⟩ | hin
    · rcases h.1 label ol hol loc hin with ⟨c'', hc'', hinc⟩
      have hne : loc.uri ≠ uri := hnouri label ol hol loc hin
      exact ⟨c'', by rw [recGet_recSet_ne cache uri loc.uri c (fun hx => hne hx.symm)]; exact hc'', hinc⟩
    · rcases List.mem_map.1 hin with ⟨e, hef, heq⟩
      have hefm := List.mem_filter.1 hef
      have hel : e.1 = label := by simpa using hefm.2
      refine ⟨c, ?_, ?_⟩
      · rw [← heq]
        exact recGet_recSet_self cache uri c
      · rw [← heq]
        simp only
        rw [← hel]
        exact hefm.1
  · intro uri' c' hget e hmem
    rw [recGet_insertAll idx uri (proj c) e.1]
    by_cases huri : uri' = uri
    · subst huri
      rw [recGet_recSet_self cache uri' c] at hget
      have hcc := Option.some.inj hget
      subst hcc
      have hin : ({ uri := uri', range := e.2 } : Location) ∈
          ((proj c).filter (fun x => x.1 = e.1)).map
            (fun x => ({ uri := uri', range := x.2 } : Location)) :=
        List.mem_map.2 ⟨e, List.mem_filter.2 ⟨hmem, by simp⟩, rfl⟩
      exact appendOpt_of_mem_new hin
    · rw [recGet_recSet_ne cache uri uri' c (fun hx => huri hx.symm)] at hget
      rcases h.2 uri' c' hget e hmem with ⟨locs, hlocs, hin⟩
      exact appendOpt_of_mem_base hlocs hin

theorem noEmpty_removeAll {idx : Rec (List Location)} (hmi : nodupKeys idx)
    (uri : String) (entries : List (String × Range)) (h : noEmpty idx) :
    noEmpty (removeAll idx uri entries) := by
  intro label locs' hget
  rw [recGet_removeAll idx hmi uri entries label] at hget
  by_cases hcov : entries.any (fun e => e.1 = label)
  · rw [if_pos hcov] at hget
    rcases filterErase_eq_some hget with ⟨locs, -, -, hne⟩
    exact hne
  · rw [if_neg hcov] at hget
    exact h label locs' hget

theorem noEmpty_insertAll {idx : Rec (List Location)} (uri : String)
    (entries : List (String × Range)) (h : noEmpty idx) :
    noEmpty (insertAll idx uri entries) := by
  intro label locs' hget
  rw [recGet_insertAll idx uri entries label] at hget
  unfold appendOpt at hget
  by_cases he : ((entries.filter (fun e => e.1 = label)).map
      (fun e => ({ uri := uri, range := e.2 } : Location))).isEmpty
  · rw [if_pos he] at hget
    exact h label locs' hget
  · rw [if_neg he] at hget
    have heq := Option.some.inj hget
    rw [← heq]
    intro hnil
    rcases List.append_eq_nil.1 hnil with ⟨-, hnew⟩
    exact he (by rw [hnew]; rfl)

/-- Component description of `removeFromIndexes` when the document is tracked. -/
theorem removeFromIndexes_eq_some {s : IndexerState} {uri : String} {cached : DocCache}
    (hc : recGet s.docCache uri = some cached) :
    removeFromIndexes s uri =
      { prefixIndex := removeAll s.prefixIndex uri cached.prefixes
        subjectIndex := removeAll s.subjectIndex uri cached.subjects
        symbolIndex := removeAll s.symbolIndex uri cached.symbols
        docCache := recDelete s.docCache uri } := by
  unfold removeFromIndexes
  rw [hc]

/-- Component description of `removeFromIndexes` when the document is unknown. -/
theorem removeFromIndexes_eq_none {s : IndexerState} {uri : String}
    (hc : recGet s.docCache uri = none) :
    removeFromIndexes s uri = { s with docCache := recDelete s.docCache uri } := by
  unfold removeFromIndexes
  rw [hc]

/-- Whatever branch removal takes, the cache record of the document is deleted. -/
theorem docCache_removeFromIndexes (s : IndexerState) (uri : String) :
    (removeFromIndexes s uri).docCache = recDelete s.docCache uri := by
  unfold removeFromIndexes
  cases recGet s.docCache uri <;> rfl

theorem wfState_removeFromIndexes (s : IndexerState) (uri : String) (h : wfState s) :
    wfState (removeFromIndexes s uri) := by
  obtain ⟨⟨hp, hs, hy⟩, hnp, hns, hny, hnc, hep, hes, hey⟩ := h
  cases hc : recGet s.docCache uri with
  | some cached =>
    rw [removeFromIndexes_eq_some hc]
    exact ⟨⟨idxConsistent_removeAll hnp hnc hc hp,
            idxConsistent_removeAll hns hnc hc hs,
            idxConsistent_removeAll hny hnc hc hy⟩,
           nodupKeys_removeAll _ _ _ hnp,
           nodupKeys_removeAll _ _ _ hns,
           nodupKeys_removeAll _ _ _ hny,
           nodupKeys_recDelete _ _ hnc,
           noEmpty_removeAll hnp _ _ hep,
           noEmpty_removeAll hns _ _ hes,
           noEmpty_removeAll hny _ _ hey⟩
  | none =>
    rw [removeFromIndexes_eq_none hc]
    exact ⟨⟨idxConsistent_recDelete_of_none hnc hc hp,
            idxConsistent_recDelete_of_none hnc hc hs,
            idxConsistent_recDelete_of_none hnc hc hy⟩,
           hnp, hns, hny, nodupKeys_recDelete _ _ hnc, hep, hes, hey⟩

/-- Consistency forces every index location of an untracked document out. -/
theorem no_uri_of_consistent {idx : Rec (List Location)} {cache : Rec DocCache}
    {proj : DocCache → List (String × Range)} {uri : String}
    (h : idxConsistent idx proj cache) (hnone : recGet cache uri = none) :
    ∀ label locs, recGet idx label = some locs → ∀ loc ∈ locs, loc.uri ≠ uri := by
  intro label locs hget loc hmem heq
  rcases h.1 label locs hget loc hmem with ⟨c, hcget, -⟩
  rw [heq, hnone] at hcget
  cases hcget

theorem wfState_reindexDocument (extract : String → Extraction) (s : IndexerState)
    (uri text : String) (h : wfState s) :
    wfState (reindexDocument extract s uri text) := by
  have h0 := wfState_removeFromIndexes s uri h
  obtain ⟨⟨hp, hs, hy⟩, hnp, hns, hny, hnc, hep, hes, hey⟩ := h0
  have hnone : recGet (removeFromIndexes s uri).docCache uri = none := by
    rw [docCache_removeFromIndexes]
    exact recGet_recDelete_self _ _ h.2.2.2.2.1
  exact ⟨⟨idxConsistent_insertAll hnone (no_uri_of_consistent hp hnone) hp,
          idxConsistent_insertAll hnone (no_uri_of_consistent hs hnone) hs,
          idxConsistent_insertAll hnone (no_uri_of_consistent hy hnone) hy⟩,
         nodupKeys_insertAll _ _ _ hnp,
         nodupKeys_insertAll _ _ _ hns,
         nodupKeys_insertAll _ _ _ hny,
         nodupKeys_recSet _ _ _ hnc,
         noEmpty_insertAll _ _ hep,
         noEmpty_insertAll _ _ hes,
         noEmpty_insertAll _ _ hey⟩

theorem wfState_applyOp (extract : String → Extraction) (s : IndexerState)
    (op : IndexOp) (h : wfState s) : wfState (applyOp extract s op) := by
  cases op with
  | reindex uri text => exact wfState_reindexDocument extract s uri text h
  | close uri => exact wfState_removeFromIndexes s uri h

theorem wfState_foldl (extract : String → Extraction) (ops : List IndexOp)
    (s : IndexerState) (h : wfState s) : wfState (ops.foldl (applyOp extract) s) := by
  induction ops generalizing s with
  | nil => exact h
  | cons op rest ih => exact ih _ (wfState_applyOp extract s op h)

theorem wfState_runOps (extract : String → Extraction) (ops : List IndexOp) :
    wfState (runOps extract ops) :=
  wfState_foldl extract ops emptyState wfState_empty

/-- C1: after any sequence of `reindexDocument`/`removeFromIndexes` calls
starting from the empty index, the per-document contribution records
(`docCache`) agree exactly with the three global indexes: every
(label, location) present in `prefixIndex`/`subjectIndex`/`symbolIndex`
appears in the contribution record of the document named by the location's
uri, and conversely every entry of every contribution record is present in
the corresponding global index. -/
theorem C1_index_cache_consistency (extract : String → Extraction)
    (ops : List IndexOp) : consistent (runOps extract ops) :=
  (wfState_runOps extract ops).1

/-! ### List-level descriptions of the removal/insertion loops

Used to prove that re-running `reindexDocument` reproduces the identical
state, key order included (`Object.keys` order is observable through
`collectGlobalSubjects`). -/
theorem recGet_of_mem_nodup {α : Type} {m : Rec α} (hm : nodupKeys m)
    {e : String × α} (he : e ∈ m) : recGet m e.1 = some e.2 := by
  induction m with
  | nil => cases he
  | cons hd tl ih =>
    simp only [nodupKeys, recKeys, List.map_cons, List.nodup_cons] at hm
    rcases List.mem_cons.1 he with he | he
    · subst he
      simp [recGet]
    · have hne : hd.1 ≠ e.1 := by
        intro hc
        exact hm.1 (hc ▸ List.mem_map.2 ⟨e, he, rfl⟩)
      simp only [recGet, if_neg hne]
      exact ih hm.2 he

theorem recHas_eq_false_of_none {α : Type} {m : Rec α} {k : String}
    (h : recGet m k = none) : recHas m k = false := by
  rw [← Bool.not_eq_true, recHas_iff_mem]
  exact (recGet_eq_none m k).1 h

theorem recSet_of_not_has {α : Type} (m : Rec α) (k : String) (v : α)
    (h : recHas m k = false) : recSet m k v = m ++ [(k, v)] := by
  induction m with
  | nil => rfl
  | cons hd tl ih =>
    simp only [recHas, Bool.or_eq_false_iff, decide_eq_false_iff_not] at h
    simp only [recSet, if_neg h.1, List.cons_append]
    rw [ih h.2]

theorem recDelete_append_single {α : Type} (m : Rec α) (k : String) (v : α)
    (h : recHas m k = false) : recDelete (m ++ [(k, v)]) k = m := by
  induction m with
  | nil => simp [recDelete]
  | cons hd tl ih =>
    simp only [recHas, Bool.or_eq_false_iff, decide_eq_false_iff_not] at h
    simp only [List.cons_append, recDelete, if_neg h.1]
    exact congrArg (hd :: ·) (ih h.2)

theorem recDelete_recSet_of_none {α : Type} (m : Rec α) (k : String) (v : α)
    (h : recGet m k = none) : recDelete (recSet m k v) k = m := by
  have hh := recHas_eq_false_of_none h
  rw [recSet_of_not_has m k v hh]
  exact recDelete_append_single m k v hh

theorem recPush_of_has (m : Rec (List Location)) (k : String) (v : Location)
    (hm : nodupKeys m) (h : recHas m k = true) :
    recPush m k v = m.map (fun e => if e.1 = k then (e.1, e.2 ++ [v]) else e) := by
  induction m with
  | nil => cases h
  | cons hd tl ih =>
    simp only [nodupKeys, recKeys, List.map_cons, List.nodup_cons] at hm
    by_cases hk : hd.1 = k
    · have hget : recGet (hd :: tl) k = some hd.2 := by simp [recGet, hk]
      simp only [recPush, hget, Option.getD_some, recSet, if_pos hk, List.map_cons, if_pos hk]
      rw [← hk]
      have : tl.map (fun e => if e.1 = hd.1 then (e.1, e.2 ++ [v]) else e) = tl := by
        conv_rhs => rw [← List.map_id tl]
        apply List.map_congr_left
        intro x hx
        have hne : x.1 ≠ hd.1 := by
          intro hc
          exact hm.1 (hc ▸ List.mem_map.2 ⟨x, hx, rfl⟩)
        simp [if_neg hne]
      rw [hk] at this ⊢
      rw [this]
    · have hget : recGet (hd :: tl) k = recGet tl k := by simp [recGet, hk]
      have htl : recHas tl k = true := by
        simp only [recHas, Bool.or_eq_true, decide_eq_true_eq] at h
        rcases h with h | h
        · exact absurd h hk
        · exact h
      simp only [recPush, hget, recSet, if_neg hk, List.map_cons, if_neg hk]
      rw [show ((hd :: recSet tl k ((recGet tl k).getD [] ++ [v])) =
        hd :: recPush tl k v) from rfl]
      rw [ih hm.2 htl]

theorem recPush_of_not_has (m : Rec (List Location)) (k : String) (v : Location)
    (h : recHas m k = false) : recPush m k v = m ++ [(k, [v])] := by
  have hnone : recGet m k = none := by
    rw [recGet_eq_none]
    intro hmem
    rw [← recHas_iff_mem] at hmem
    rw [h] at hmem
    cases hmem
  unfold recPush
  rw [hnone]
  exact recSet_of_not_has m k _ h

theorem filterMap_id_of_some {α : Type} {l : List α} {f : α → Option α}
    (h : ∀ x ∈ l, f x = some x) : l.filterMap f = l := by
  induction l with
  | nil => rfl
  | cons hd tl ih =>
    rw [List.filterMap_cons, h hd (List.mem_cons_self hd tl)]
    rw [ih (fun x hx => h x (List.mem_cons_of_mem hd hx))]

theorem removeEntry_cons_ne (hd : String × List Location)
    (rest : Rec (List Location)) (uri label : String) (h : hd.1 ≠ label) :
    removeEntry (hd :: rest) uri label = hd :: removeEntry rest uri label := by
  have hget : recGet (hd :: rest) label = recGet rest label := by
    simp [recGet, h]
  cases hget2 : recGet rest label with
  | none => simp only [removeEntry, hget, hget2]
  | some locs =>
    simp only [removeEntry, hget, hget2]
    by_cases he : (locs.filter (fun loc => loc.uri ≠ uri)).isEmpty
    · rw [if_pos he, if_pos he]
      simp [recDelete, h]
    · rw [if_neg he, if_neg he]
      simp [recSet, h]

theorem removeEntry_cons_self (hd : String × List Location)
    (rest : Rec (List Location)) (uri label : String) (h : hd.1 = label) :
    removeEntry (hd :: rest) uri label =
      if (hd.2.filter (fun loc => loc.uri ≠ uri)).isEmpty then rest
      else (label, hd.2.filter (fun loc => loc.uri ≠ uri)) :: rest := by
  have hget : recGet (hd :: rest) label = some hd.2 := by simp [recGet, h]
  simp only [removeEntry, hget]
  by_cases he : (hd.2.filter (fun loc => loc.uri ≠ uri)).isEmpty
  · rw [if_pos he, if_pos he]
    simp [recDelete, h]
  · rw [if_neg he, if_neg he]
    simp [recSet, h]

theorem removeEntry_eq_filterMap (idx : Rec (List Location)) (hm : nodupKeys idx)
    (uri label : String) :
    removeEntry idx uri label = idx.filterMap (removePair uri label) := by
  induction idx with
  | nil => rfl
  | cons hd tl ih =>
    simp only [nodupKeys, recKeys, List.map_cons, List.nodup_cons] at hm
    by_cases h : hd.1 = label
    · rw [removeEntry_cons_self hd tl uri label h]
      rw [List.filterMap_cons]
      simp only [removePair, if_pos h]
      by_cases he : (hd.2.filter (fun loc => loc.uri ≠ uri)).isEmpty
      · rw [if_pos he, if_pos he]
        have htl : tl.filterMap (removePair uri label) = tl := by
          apply filterMap_id_of_some
          intro x hx
          have hne : x.1 ≠ label := by
            intro hc2
            exact hm.1 ((hc2.trans h.symm) ▸ List.mem_map.2 ⟨x, hx, rfl⟩)
          simp [removePair, hne]
        rw [htl]
      · rw [if_neg he, if_neg he]
        have htl : tl.filterMap (removePair uri label) = tl := by
          apply filterMap_id_of_some
          intro x hx
          have hne : x.1 ≠ label := by
            intro hc2
            exact hm.1 ((hc2.trans h.symm) ▸ List.mem_map.2 ⟨x, hx, rfl⟩)
          simp [removePair, hne]
        rw [htl]
    · rw [removeEntry_cons_ne hd tl uri label h]
      rw [List.filterMap_cons]
      simp only [removePair, if_neg h]
      rw [ih hm.2]

theorem removePair_bind_removeFn (uri : String) (e : String × Range)
    (rest : List (String × Range)) (x : String × List Location) :
    (removePair uri e.1 x).bind (removeFn uri rest) = removeFn uri (e :: rest) x := by
  by_cases h1 : x.1 = e.1
  · have hany : ((e :: rest).any fun y => y.1 = x.1) = true := by
      simp [List.any_cons, h1.symm]
    by_cases he : (x.2.filter (fun loc => loc.uri ≠ uri)).isEmpty
    · have hl : removePair uri e.1 x = none := by
        simp only [removePair]
        rw [if_pos h1, if_pos he]
      have hr : removeFn uri (e :: rest) x = none := by
        simp only [removeFn]
        rw [if_pos hany, if_pos he]
      rw [hl, hr]
      rfl
    · have hl : removePair uri e.1 x =
          some (e.1, x.2.filter (fun loc => loc.uri ≠ uri)) := by
        simp only [removePair]
        rw [if_pos h1, if_neg he]
      have hr : removeFn uri (e :: rest) x =
          some (x.1, x.2.filter (fun loc => loc.uri ≠ uri)) := by
        simp only [removeFn]
        rw [if_pos hany, if_neg he]
      rw [hl, hr, Option.some_bind]
      simp only [removeFn]
      by_cases hrany : (rest.any fun y => y.1 = e.1)
      · rw [if_pos hrany, filter_uri_idem, if_neg he, h1]
      · rw [if_neg hrany, h1]
  · have hl : removePair uri e.1 x = some x := by
      simp only [removePair]
      rw [if_neg h1]
    have hany : ((e :: rest).any fun y => y.1 = x.1)
        = (rest.any fun y => y.1 = x.1) := by
      rw [List.any_cons]
      rw [show (decide (e.1 = x.1)) = false from
        decide_eq_false (fun hc => h1 hc.symm)]
      rw [Bool.false_or]
    rw [hl, Option.some_bind]
    simp only [removeFn]
    rw [hany]

theorem removeAll_eq_filterMap (idx : Rec (List Location)) (hm : nodupKeys idx)
    (uri : String) (entries : List (String × Range)) :
    removeAll idx uri entries = idx.filterMap (removeFn uri entries) := by
  induction entries generalizing idx with
  | nil =>
    have : idx.filterMap (removeFn uri []) = idx := by
      apply filterMap_id_of_some
      intro x _
      rfl
    rw [this]
    rfl
  | cons e rest ih =>
    show removeAll (removeEntry idx uri e.1) uri rest = _
    rw [ih _ (nodupKeys_removeEntry idx uri e.1 hm)]
    rw [removeEntry_eq_filterMap idx hm uri e.1]
    rw [List.filterMap_filterMap]
    apply List.filterMap_congr
    intro x _
    exact removePair_bind_removeFn uri e rest x

theorem newLocsFor_cons_self (uri : String) (e : String × Range)
    (rest : List (String × Range)) (k : String) (h : e.1 = k) :
    newLocsFor uri (e :: rest) k =
      ({ uri := uri, range := e.2 } : Location) :: newLocsFor uri rest k := by
  simp only [newLocsFor, List.filter_cons, h]
  simp

theorem newLocsFor_cons_ne (uri : String) (e : String × Range)
    (rest : List (String × Range)) (k : String) (h : e.1 ≠ k) :
    newLocsFor uri (e :: rest) k = newLocsFor uri rest k := by
  simp only [newLocsFor, List.filter_cons]
  rw [show (decide (e.1 = k)) = false from decide_eq_false h]
  simp

theorem recKeys_map_adjust {f : String × List Location → List Location}
    (idx : Rec (List Location)) :
    recKeys (idx.map (fun x => (x.1, f x))) = recKeys idx := by
  simp only [recKeys, List.map_map]
  rfl

theorem insertAll_eq (idx : Rec (List Location)) (hm : nodupKeys idx)
    (uri : String) (entries : List (String × Range)) :
    insertAll idx uri entries =
      idx.map (fun x => (x.1, x.2 ++ newLocsFor uri entries x.1)) ++
        freshPart uri (recKeys idx) entries := by
  induction entries generalizing idx with
  | nil =>
    show idx = _
    have h1 : idx.map (fun x => (x.1, x.2 ++ newLocsFor uri [] x.1)) = idx := by
      conv_rhs => rw [← List.map_id idx]
      apply List.map_congr_left
      intro x _
      simp [newLocsFor]
    rw [h1, freshPart, List.append_nil]
  | cons e rest ih =>
    show insertAll (recPush idx e.1 ({ uri := uri, range := e.2 } : Location)) uri rest = _
    by_cases hk : recHas idx e.1
    · rw [recPush_of_has idx e.1 _ hm hk]
      have hnd : nodupKeys (idx.map (fun x =>
          if x.1 = e.1 then (x.1, x.2 ++ [({ uri := uri, range := e.2 } : Location)]) else x)) := by
        unfold nodupKeys
        have : recKeys (idx.map (fun x =>
            if x.1 = e.1 then (x.1, x.2 ++ [({ uri := uri, range := e.2 } : Location)]) else x))
            = recKeys idx := by
          simp only [recKeys, List.map_map]
          apply List.map_congr_left
          intro x _
          by_cases hx : x.1 = e.1 <;> simp [hx]
        rw [this]
        exact hm
      rw [ih _ hnd]
      have hkeys : recKeys (idx.map (fun x =>
          if x.1 = e.1 then (x.1, x.2 ++ [({ uri := uri, range := e.2 } : Location)]) else x))
          = recKeys idx := by
        simp only [recKeys, List.map_map]
        apply List.map_congr_left
        intro x _
        by_cases hx : x.1 = e.1 <;> simp [hx]
      rw [hkeys]
      have hfresh : freshPart uri (recKeys idx) (e :: rest)
          = freshPart uri (recKeys idx) rest := by
        rw [freshPart, if_pos ((recHas_iff_mem idx e.1).1 hk)]
      rw [hfresh]
      congr 1
      rw [List.map_map]
      apply List.map_congr_left
      intro x _
      by_cases hx : x.1 = e.1
      · simp only [Function.comp, if_pos hx]
        rw [newLocsFor_cons_self uri e rest x.1 (hx ▸ rfl)]
        simp [List.append_assoc]
      · simp only [Function.comp, if_neg hx]
        rw [newLocsFor_cons_ne uri e rest x.1 (fun hc => hx hc.symm)]
    · rw [recPush_of_not_has idx e.1 _ (by simpa using hk)]
      have hmem : e.1 ∉ recKeys idx := fun hmem => hk ((recHas_iff_mem idx e.1).2 hmem)
      have hnd : nodupKeys (idx ++ [(e.1, [({ uri := uri, range := e.2 } : Location)])]) := by
        unfold nodupKeys
        simp only [recKeys, List.map_append, List.map_cons, List.map_nil]
        refine List.Nodup.append hm (List.nodup_singleton _) ?_
        intro a ha hb
        simp only [List.mem_singleton] at hb
        subst hb
        exact hmem ha
      rw [ih _ hnd]
      have hkeys : recKeys (idx ++ [(e.1, [({ uri := uri, range := e.2 } : Location)])])
          = recKeys idx ++ [e.1] := by
        simp [recKeys]
      rw [hkeys]
      have hfresh : freshPart uri (recKeys idx) (e :: rest)
          = (e.1, ({ uri := uri, range := e.2 } : Location) :: newLocsFor uri rest e.1) ::
              freshPart uri (recKeys idx ++ [e.1]) rest := by
        rw [freshPart, if_neg hmem]
      rw [hfresh]
      rw [List.map_append]
      have hmaps : idx.map (fun x => (x.1, x.2 ++ newLocsFor uri rest x.1))
          = idx.map (fun x => (x.1, x.2 ++ newLocsFor uri (e :: rest) x.1)) := by
        apply List.map_congr_left
        intro x hx
        have hne : x.1 ≠ e.1 := by
          intro hc
          exact hmem (hc ▸ List.mem_map.2 ⟨x, hx, rfl⟩)
        rw [newLocsFor_cons_ne uri e rest x.1 (fun hc => hne hc.symm)]
      rw [hmaps]
      simp [List.append_assoc]

/-- Every pair appended as a fresh key comes from the processed entries, and
all of its locations carry the inserted document's uri. -/
theorem freshPart_mem {uri : String} {keys : List String}
    {es : List (String × Range)} {p : String × List Location}
    (hp : p ∈ freshPart uri keys es) :
    (es.any fun e => e.1 = p.1) = true ∧ ∀ loc ∈ p.2, loc.uri = uri := by
  induction es generalizing keys with
  | nil => cases hp
  | cons e rest ih =>
    rw [freshPart] at hp
    by_cases hk : e.1 ∈ keys
    · rw [if_pos hk] at hp
      obtain ⟨h1, h2⟩ := ih hp
      refine ⟨?_, h2⟩
      rw [List.any_cons, h1, Bool.or_true]
    · rw [if_neg hk] at hp
      rcases List.mem_cons.1 hp with hp | hp
      · subst hp
        constructor
        · rw [List.any_cons]
          simp
        · intro loc hl
          rcases List.mem_cons.1 hl with hl | hl
          · subst hl; rfl
          · rcases List.mem_map.1 hl with ⟨x, -, hx⟩
            rw [← hx]
      · obtain ⟨h1, h2⟩ := ih hp
        refine ⟨?_, h2⟩
        rw [List.any_cons, h1, Bool.or_true]

/-- Removing a document's entries right after inserting them restores the
index exactly (key order included), provided the index held no empty slot and
no location of that document beforehand. -/
theorem remove_insert_roundtrip (idx : Rec (List Location)) (hm : nodupKeys idx)
    (uri : String) (entries : List (String × Range))
    (hok : ∀ x ∈ idx, x.2 ≠ [] ∧ ∀ loc ∈ x.2, loc.uri ≠ uri) :
    removeAll (insertAll idx uri entries) uri entries = idx := by
  rw [removeAll_eq_filterMap _ (nodupKeys_insertAll idx uri entries hm) uri entries]
  rw [insertAll_eq idx hm uri entries]
  rw [List.filterMap_append]
  have h1 : (idx.map (fun x => (x.1, x.2 ++ newLocsFor uri entries x.1))).filterMap
      (removeFn uri entries) = idx := by
    rw [List.filterMap_map]
    apply filterMap_id_of_some
    intro x hx
    obtain ⟨hne, hnu⟩ := hok x hx
    show removeFn uri entries (x.1, x.2 ++ newLocsFor uri entries x.1) = some x
    by_cases hcov : (entries.any fun e => e.1 = x.1)
    · have hfil : ((x.2 ++ newLocsFor uri entries x.1).filter
          (fun loc => loc.uri ≠ uri)) = x.2 := by
        rw [List.filter_append]
        have h2 : x.2.filter (fun loc => loc.uri ≠ uri) = x.2 :=
          List.filter_eq_self.mpr (fun loc hl => by simpa using hnu loc hl)
        have h3 : (newLocsFor uri entries x.1).filter (fun loc => loc.uri ≠ uri) = [] := by
          rw [List.filter_eq_nil_iff]
          intro loc hl
          rcases List.mem_map.1 hl with ⟨y, -, hy⟩
          rw [← hy]
          simp
        rw [h2, h3, List.append_nil]
      simp only [removeFn]
      rw [if_pos hcov, hfil]
      rw [if_neg (by simpa [List.isEmpty_iff] using hne)]
    · have hnew : newLocsFor uri entries x.1 = [] := by
        unfold newLocsFor
        rw [show (entries.filter fun e => e.1 = x.1) = [] from ?_, List.map_nil]
        rw [List.filter_eq_nil_iff]
        intro y hy hc
        exact hcov (List.any_eq_true.2 ⟨y, hy, hc⟩)
      simp only [removeFn]
      rw [if_neg hcov, hnew, List.append_nil]
  have h2 : (freshPart uri (recKeys idx) entries).filterMap (removeFn uri entries) = [] := by
    rw [List.filterMap_eq_nil_iff]
    intro p hp
    obtain ⟨hcov, hu⟩ := freshPart_mem hp
    have hfil : (p.2.filter fun loc => loc.uri ≠ uri) = [] := by
      rw [List.filter_eq_nil_iff]
      intro loc hl
      simp [hu loc hl]
    simp only [removeFn]
    rw [if_pos hcov, hfil]
    rfl
  rw [h1, h2, List.append_nil]

/-- Component description of `reindexDocument`. -/
theorem reindexDocument_def (extract : String → Extraction) (s : IndexerState)
    (uri text : String) :
    reindexDocument extract s uri text =
      { prefixIndex := insertAll (removeFromIndexes s uri).prefixIndex uri
          (extractionCache (extract text)).prefixes
        subjectIndex := insertAll (removeFromIndexes s uri).subjectIndex uri
          (extractionCache (extract text)).subjects
        symbolIndex := insertAll (removeFromIndexes s uri).symbolIndex uri
          (extractionCache (extract text)).symbols
        docCache := recSet (removeFromIndexes s uri).docCache uri
          (extractionCache (extract text)) } := rfl

/-- Reindexing a document twice in a row from a well-formed state produces a
state identical (lists, key order and all) to reindexing it once. -/
theorem reindex_reindex_eq (extract : String → Extraction) (s : IndexerState)
    (uri text : String) (h : wfState s) :
    reindexDocument extract (reindexDocument extract s uri text) uri text
      = reindexDocument extract s uri text := by
  have h0 := wfState_removeFromIndexes s uri h
  obtain ⟨⟨hp, hs, hy⟩, hnp, hns, hny, hnc, hep, hes, hey⟩ := h0
  have hnone : recGet (removeFromIndexes s uri).docCache uri = none := by
    rw [docCache_removeFromIndexes]
    exact recGet_recDelete_self _ _ h.2.2.2.2.1
  have hok : ∀ (idx : Rec (List Location)),
      idxConsistent idx (fun c => c.prefixes) (removeFromIndexes s uri).docCache ∨
      idxConsistent idx (fun c => c.subjects) (removeFromIndexes s uri).docCache ∨
      idxConsistent idx (fun c => c.symbols) (removeFromIndexes s uri).docCache →
      nodupKeys idx → noEmpty idx →
      ∀ x ∈ idx, x.2 ≠ [] ∧ ∀ loc ∈ x.2, loc.uri ≠ uri := by
    intro idx hcons hnd hne x hx
    have hget : recGet idx x.1 = some x.2 := recGet_of_mem_nodup hnd hx
    refine ⟨hne x.1 x.2 hget, ?_⟩
    rcases hcons with hc | hc | hc
    · exact no_uri_of_consistent hc hnone x.1 x.2 hget
    · exact no_uri_of_consistent hc hnone x.1 x.2 hget
    · exact no_uri_of_consistent hc hnone x.1 x.2 hget
  set s0 := removeFromIndexes s uri with hs0
  set c := extractionCache (extract text) with hc
  have hTs : reindexDocument extract s uri text =
      { prefixIndex := insertAll s0.prefixIndex uri c.prefixes
        subjectIndex := insertAll s0.subjectIndex uri c.subjects
        symbolIndex := insertAll s0.symbolIndex uri c.symbols
        docCache := recSet s0.docCache uri c } := rfl
  have hTcache : recGet (reindexDocument extract s uri text).docCache uri = some c := by
    rw [hTs]
    exact recGet_recSet_self s0.docCache uri c
  have hremove : removeFromIndexes (reindexDocument extract s uri text) uri = s0 := by
    rw [removeFromIndexes_eq_some hTcache]
    rw [hTs]
    have e1 : removeAll (insertAll s0.prefixIndex uri c.prefixes) uri c.prefixes
        = s0.prefixIndex :=
      remove_insert_roundtrip s0.prefixIndex hnp uri c.prefixes
        (hok s0.prefixIndex (Or.inl hp) hnp hep)
    have e2 : removeAll (insertAll s0.subjectIndex uri c.subjects) uri c.subjects
        = s0.subjectIndex :=
      remove_insert_roundtrip s0.subjectIndex hns uri c.subjects
        (hok s0.subjectIndex (Or.inr (Or.inl hs)) hns hes)
    have e3 : removeAll (insertAll s0.symbolIndex uri c.symbols) uri c.symbols
        = s0.symbolIndex :=
      remove_insert_roundtrip s0.symbolIndex hny uri c.symbols
        (hok s0.symbolIndex (Or.inr (Or.inr hy)) hny hey)
    have e4 : recDelete (recSet s0.docCache uri c) uri = s0.docCache :=
      recDelete_recSet_of_none s0.docCache uri c hnone
    simp only
    rw [e1, e2, e3, e4]
  rw [reindexDocument_def extract (reindexDocument extract s uri text) uri text, hremove]
  rfl

/-- C2: for every document uri and text, running `reindexDocument(uri, text)`
twice in a row in any call sequence yields an index state (all three global
indexes and the per-document contribution store, key order included)
identical to running it once. -/
theorem C2_reindex_idempotent (extract : String → Extraction) (ops : List IndexOp)
    (uri text : String) :
    runOps extract (ops ++ [IndexOp.reindex uri text, IndexOp.reindex uri text])
      = runOps extract (ops ++ [IndexOp.reindex uri text]) := by
  unfold runOps
  rw [List.foldl_append, List.foldl_append]
  simp only [List.foldl_cons, List.foldl_nil]
  exact reindex_reindex_eq extract _ uri text
    (wfState_foldl extract ops emptyState wfState_empty)

theorem requestStep_noop {V : Type} (known : String → Bool)
    (s : VocabCacheState V) (key : String)
    (h : s.loadingPromises.contains key = true) :
    requestStep known s key = (s, false) := by
  unfold requestStep
  by_cases hc : recHas s.cachedVocabs key
  · rw [if_pos hc]
  · rw [if_neg hc, if_pos h]

theorem runRequests_noop {V : Type} (known : String → Bool)
    (s : VocabCacheState V) (key : String) (n : Nat)
    (h : s.loadingPromises.contains key = true) :
    runRequests known s key n = (s, 0) := by
  induction n with
  | zero => rfl
  | succ n ih =>
    show (let r := requestStep known s key
          let rest := runRequests known r.1 key n
          (rest.1, (if r.2 then 1 else 0) + rest.2)) = (s, 0)
    rw [requestStep_noop known s key h]
    simp only
    rw [ih]
    rfl

/-- C5: starting uncached and with no load pending, `n ≥ 1` requests for the
same known key issue exactly one external fetch; the cache is untouched and
all requests share the single pending operation registered for the key. -/
theorem C5_single_flight (V : Type) (known : String → Bool)
    (s : VocabCacheState V) (key : String) (n : Nat) (hn : 1 ≤ n)
    (hcache : recHas s.cachedVocabs key = false)
    (hload : s.loadingPromises.contains key = false)
    (hknown : known key = true) :
    (runRequests known s key n).2 = 1 ∧
    (runRequests known s key n).1.cachedVocabs = s.cachedVocabs ∧
    (runRequests known s key n).1.loadingPromises = s.loadingPromises ++ [key] := by
  obtain ⟨m, rfl⟩ : ∃ m, n = m + 1 := ⟨n - 1, by omega⟩
  have hfirst : requestStep known s key =
      ({ s with loadingPromises := s.loadingPromises ++ [key] }, true) := by
    unfold requestStep
    rw [if_neg (by rw [hcache]; simp), if_neg (by rw [hload]; simp), hknown]
  have hrest : runRequests known
      ({ s with loadingPromises := s.loadingPromises ++ [key] } : VocabCacheState V)
      key m = ({ s with loadingPromises := s.loadingPromises ++ [key] }, 0) := by
    apply runRequests_noop
    simp
  have hrun : runRequests known s key (m + 1)
      = ({ s with loadingPromises := s.loadingPromises ++ [key] }, 1) := by
    show (let r := requestStep known s key
          let rest := runRequests known r.1 key m
          (rest.1, (if r.2 then 1 else 0) + rest.2)) = _
    rw [hfirst]
    simp only
    rw [hrest]
    rfl
  rw [hrun]
  exact ⟨rfl, rfl, rfl⟩

/-- Witness for C5 with three concurrent requests for `foaf`. -/
theorem C5_single_flight_witness :
    1 ≤ 3 ∧
    ((runRequests (fun _ => true) (⟨[], []⟩ : VocabCacheState Nat) "foaf" 3).2 = 1 ∧
     (runRequests (fun _ => true) (⟨[], []⟩ : VocabCacheState Nat) "foaf" 3).1.cachedVocabs
       = ([] : Rec Nat) ∧
     (runRequests (fun _ => true) (⟨[], []⟩ : VocabCacheState Nat) "foaf" 3).1.loadingPromises
       = [] ++ ["foaf"]) :=
  ⟨by decide,
   C5_single_flight Nat (fun _ => true) ⟨[], []⟩ "foaf" 3 (by decide)
     (by decide) (by decide) (by decide)⟩

theorem erase_append_singleton {l : List String} {key : String}
    (h : l.contains key = false) : (l ++ [key]).erase key = l := by
  induction l with
  | nil => simp [List.erase]
  | cons hd tl ih =>
    simp only [List.contains_cons, Bool.or_eq_false_iff] at h
    have hne : (hd == key) = false := by
      have h1 := h.1
      rw [beq_eq_false_iff_ne] at h1 ⊢
      exact fun hc => h1 hc.symm
    simp only [List.cons_append, List.erase_cons, hne]
    rw [if_neg (by simp)]
    rw [ih h.2]

/-- C9: when the external load for an uncached key fails, the cache entry is
not created and the in-flight token is removed — the state reverts exactly to
what it was, so the key is back in the retryable `Unloaded` state and the next
request issues a fresh fetch.  (The rejection is caught inside the async
closure and only logged; `settleStep` is total, no exception escapes.) -/
theorem C9_failed_load_reverts_and_retries (V : Type) (known : String → Bool)
    (s : VocabCacheState V) (key err : String)
    (hcache : recHas s.cachedVocabs key = false)
    (hload : s.loadingPromises.contains key = false)
    (hknown : known key = true) :
    settleStep (requestStep known s key).1 key (LoadOutcome.failure err) = s ∧
    recHas (settleStep (requestStep known s key).1 key
      (LoadOutcome.failure err)).cachedVocabs key = false ∧
    (requestStep known
      (settleStep (requestStep known s key).1 key (LoadOutcome.failure err)) key).2
      = true := by
  have hfirst : requestStep known s key =
      ({ s with loadingPromises := s.loadingPromises ++ [key] }, true) := by
    unfold requestStep
    rw [if_neg (by rw [hcache]; simp), if_neg (by rw [hload]; simp), hknown]
  have hrevert : settleStep (requestStep known s key).1 key
      (LoadOutcome.failure err) = s := by
    rw [hfirst]
    show ({ cachedVocabs := s.cachedVocabs,
            loadingPromises := (s.loadingPromises ++ [key]).erase key } : VocabCacheState V) = s
    rw [erase_append_singleton hload]
  refine ⟨hrevert, ?_, ?_⟩
  · rw [hrevert]
    exact hcache
  · rw [hrevert, hfirst]

/-- Witness for C9 with key `foaf` failing once. -/
theorem C9_failed_load_witness :
    settleStep (requestStep (fun _ => true) (⟨[], []⟩ : VocabCacheState Nat) "foaf").1
        "foaf" (LoadOutcome.failure "boom") = (⟨[], []⟩ : VocabCacheState Nat) ∧
    recHas (settleStep (requestStep (fun _ => true)
        (⟨[], []⟩ : VocabCacheState Nat) "foaf").1 "foaf"
        (LoadOutcome.failure "boom")).cachedVocabs "foaf" = false ∧
    (requestStep (fun _ => true)
      (settleStep (requestStep (fun _ => true) (⟨[], []⟩ : VocabCacheState Nat) "foaf").1
        "foaf" (LoadOutcome.failure "boom")) "foaf").2 = true :=
  C9_failed_load_reverts_and_retries Nat (fun _ => true) ⟨[], []⟩ "foaf" "boom"
    (by decide) (by decide) (by decide)

/-! ### C3: rename validates candidates against live text, with exceptions -/
theorem recSet_ne_nil {α : Type} (m : Rec α) (k : String) (v : α) :
    recSet m k v ≠ [] := by
  cases m with
  | nil => simp [recSet]
  | cons e rest =>
    by_cases h : e.1 = k <;> simp [recSet, h]

theorem addEdits_mem (readFile : String → Option String) (documents : Rec String)
    (word newName : String) (changes : Rec (List RenameEdit))
    (list : List Location) (u : String) (e : RenameEdit) :
    (∃ l, recGet (addEdits readFile documents word newName changes list) u = some l ∧ e ∈ l) ↔
      ((∃ l, recGet changes u = some l ∧ e ∈ l) ∨
       (∃ loc ∈ list, loc.uri = u ∧
         e = ({ range := loc.range, newText := newName } : RenameEdit) ∧
         rangeMatchesWord readFile loc.uri loc.range word (recGet documents loc.uri) = true)) := by
  induction list generalizing changes with
  | nil =>
    simp [addEdits]
  | cons loc rest ih =>
    by_cases hv : rangeMatchesWord readFile loc.uri loc.range word
        (recGet documents loc.uri) = true
    · have heq : addEdits readFile documents word newName changes (loc :: rest)
          = addEdits readFile documents word newName
            (recSet changes loc.uri (((recGet changes loc.uri).getD []) ++
              [({ range := loc.range, newText := newName } : RenameEdit)])) rest := by
        show List.foldl _ _ (loc :: rest) = _
        rw [List.foldl_cons, if_pos hv]
        rfl
      rw [heq, ih]
      constructor
      · rintro (⟨l, hget, hmem⟩ | ⟨loc', hloc', hu, he, hval⟩)
        · by_cases huri : loc.uri = u
          · subst huri
            rw [recGet_recSet_self] at hget
            have hl := Option.some.inj hget
            rw [← hl] at hmem
            rcases List.mem_append.1 hmem with hm | hm
            · cases hbase : recGet changes loc.uri with
              | none =>
                rw [hbase] at hm
                simp at hm
              | some bl =>
                rw [hbase] at hm
                exact Or.inl ⟨bl, rfl, hm⟩
            · simp only [List.mem_singleton] at hm
              exact Or.inr ⟨loc, List.mem_cons_self loc rest, rfl, hm, hv⟩
          · rw [recGet_recSet_ne _ _ _ _ huri] at hget
            exact Or.inl ⟨l, hget, hmem⟩
        · exact Or.inr ⟨loc', List.mem_cons_of_mem loc hloc', hu, he, hval⟩
      · rintro (⟨l, hget, hmem⟩ | ⟨loc', hloc', hu, he, hval⟩)
        · by_cases huri : loc.uri = u
          · subst huri
            refine Or.inl ⟨((recGet changes loc.uri).getD []) ++
              [({ range := loc.range, newText := newName } : RenameEdit)],
              recGet_recSet_self _ _ _, ?_⟩
            rw [hget]
            exact List.mem_append.2 (Or.inl hmem)
          · exact Or.inl ⟨l, by rw [recGet_recSet_ne _ _ _ _ huri]; exact hget, hmem⟩
        · rcases List.mem_cons.1 hloc' with hl | hl
          · subst hl
            subst hu
            refine Or.inl ⟨((recGet changes loc'.uri).getD []) ++
              [({ range := loc'.range, newText := newName } : RenameEdit)],
              recGet_recSet_self _ _ _, ?_⟩
            rw [he]
            exact List.mem_append.2 (Or.inr (List.mem_singleton.2 rfl))
          · exact Or.inr ⟨loc', hl, hu, he, hval⟩
    · have heq : addEdits readFile documents word newName changes (loc :: rest)
          = addEdits readFile documents word newName changes rest := by
        show List.foldl _ _ (loc :: rest) = _
        rw [List.foldl_cons, if_neg hv]
        rfl
      rw [heq, ih]
      constructor
      · rintro (h | ⟨loc', hloc', hu, he, hval⟩)
        · exact Or.inl h
        · exact Or.inr ⟨loc', List.mem_cons_of_mem loc hloc', hu, he, hval⟩
      · rintro (h | ⟨loc', hloc', hu, he, hval⟩)
        · exact Or.inl h
        · rcases List.mem_cons.1 hloc' with hl | hl
          · subst hl
            exact absurd hval hv
          · exact Or.inr ⟨loc', hl, hu, he, hval⟩

theorem addEdits_isEmpty (readFile : String → Option String) (documents : Rec String)
    (word newName : String) (changes : Rec (List RenameEdit)) (list : List Location) :
    (addEdits readFile documents word newName changes list) = [] ↔
      (changes = [] ∧ ∀ loc ∈ list,
        rangeMatchesWord readFile loc.uri loc.range word (recGet documents loc.uri) = false) := by
  induction list generalizing changes with
  | nil =>
    simp [addEdits]
  | cons loc rest ih =>
    by_cases hv : rangeMatchesWord readFile loc.uri loc.range word
        (recGet documents loc.uri) = true
    · have heq : addEdits readFile documents word newName changes (loc :: rest)
          = addEdits readFile documents word newName
            (recSet changes loc.uri (((recGet changes loc.uri).getD []) ++
              [({ range := loc.range, newText := newName } : RenameEdit)])) rest := by
        show List.foldl _ _ (loc :: rest) = _
        rw [List.foldl_cons, if_pos hv]
        rfl
      rw [heq, ih]
      constructor
      · rintro ⟨hempty, -⟩
        exact absurd hempty (recSet_ne_nil changes loc.uri _)
      · rintro ⟨hch, hall⟩
        exact absurd (hall loc (List.mem_cons_self loc rest)) (by rw [hv]; simp)
    · have heq : addEdits readFile documents word newName changes (loc :: rest)
          = addEdits readFile documents word newName changes rest := by
        show List.foldl _ _ (loc :: rest) = _
        rw [List.foldl_cons, if_neg hv]
        rfl
      rw [heq, ih]
      constructor
      · rintro ⟨hch, hall⟩
        refine ⟨hch, fun l hl => ?_⟩
        rcases List.mem_cons.1 hl with hl' | hl'
        · subst hl'
          simpa using hv
        · exact hall l hl'
      · rintro ⟨hch, hall⟩
        exact ⟨hch, fun l hl => hall l (List.mem_cons_of_mem loc hl)⟩

/-- C3 (amended): with the request's document open and a token under the
cursor, `rename` includes an edit for uri `u` exactly for the candidate
locations at `u` that `rangeMatchesWord` validates — live text comparison for
open documents and for readable nonempty `file://` files, unconditional
inclusion for unreadable or empty files and non-`file://` uris — and returns
null exactly when no candidate validates. -/
theorem C3_rename_validates (readFile : String → Option String) (s : IndexerState)
    (documents : Rec String) (uri : String) (position : Pos) (newName : String)
    (text word : String)
    (hdoc : recGet documents uri = some text)
    (hword : currentWord text position = some word) :
    (rename readFile s documents uri position newName = none ↔
      ∀ loc ∈ renameCandidates s word,
        rangeMatchesWord readFile loc.uri loc.range word (recGet documents loc.uri) = false) ∧
    (∀ u e, (∃ ch l, rename readFile s documents uri position newName = some ch ∧
        recGet ch u = some l ∧ e ∈ l) ↔
      ∃ loc ∈ renameCandidates s word, loc.uri = u ∧
        e = ({ range := loc.range, newText := newName } : RenameEdit) ∧
        rangeMatchesWord readFile loc.uri loc.range word (recGet documents loc.uri) = true) := by
  have hrename : rename readFile s documents uri position newName =
      (if (addEdits readFile documents word newName [] (renameCandidates s word)).isEmpty
       then none
       else some (addEdits readFile documents word newName [] (renameCandidates s word))) := by
    simp only [rename, hdoc, hword]
  constructor
  · rw [hrename]
    by_cases he : (addEdits readFile documents word newName [] (renameCandidates s word)).isEmpty
    · rw [if_pos he]
      rw [List.isEmpty_iff] at he
      have := (addEdits_isEmpty readFile documents word newName [] (renameCandidates s word)).1 he
      simp only [true_iff]
      exact this.2
    · rw [if_neg he]
      rw [List.isEmpty_iff] at he
      constructor
      · intro h
        cases h
      · intro hall
        exact absurd ((addEdits_isEmpty readFile documents word newName []
          (renameCandidates s word)).2 ⟨rfl, hall⟩) he
  · intro u e
    rw [hrename]
    by_cases he : (addEdits readFile documents word newName [] (renameCandidates s word)).isEmpty
    · rw [if_pos he]
      rw [List.isEmpty_iff] at he
      have hall := ((addEdits_isEmpty readFile documents word newName []
        (renameCandidates s word)).1 he).2
      constructor
      · rintro ⟨ch, l, hch, -, -⟩
        cases hch
      · rintro ⟨loc, hloc, -, -, hval⟩
        exact absurd hval (by rw [hall loc hloc]; simp)
    · rw [if_neg he]
      have hmem := addEdits_mem readFile documents word newName [] (renameCandidates s word) u e
      constructor
      · rintro ⟨ch, l, hch, hget, hml⟩
        have hch' := Option.some.inj hch
        rcases hmem.1 ⟨l, by rw [hch']; exact hget, hml⟩ with ⟨l', hl', -⟩ | h
        · cases hl'
        · exact h
      · intro h
        rcases hmem.2 (Or.inr h) with ⟨l, hget, hml⟩
        exact ⟨_, l, rfl, hget, hml⟩

/-- Witness for C3's amended theorem: the counterexample configuration, where
the single symbol-index candidate sits in an empty on-disk file and is
included without validation. -/
theorem C3_rename_validates_witness :
    recGet [("file:///req.ttl", "ex:Bob x .")] "file:///req.ttl" = some "ex:Bob x ." ∧
    currentWord "ex:Bob x ." ⟨0, 0⟩ = some "ex:Bob" ∧
    ((rename (fun _ => some "")
        (⟨[], [], [("ex:Bob", [⟨"file:///b.ttl", ⟨⟨0, 0⟩, ⟨0, 6⟩⟩⟩])], []⟩ : IndexerState)
        [("file:///req.ttl", "ex:Bob x .")] "file:///req.ttl" ⟨0, 0⟩ "ex:Robert" = none ↔
      ∀ loc ∈ renameCandidates
          (⟨[], [], [("ex:Bob", [⟨"file:///b.ttl", ⟨⟨0, 0⟩, ⟨0, 6⟩⟩⟩])], []⟩ : IndexerState)
          "ex:Bob",
        rangeMatchesWord (fun _ => some "") loc.uri loc.range "ex:Bob"
          (recGet [("file:///req.ttl", "ex:Bob x .")] loc.uri) = false) ∧
    (∀ u e, (∃ ch l, rename (fun _ => some "")
        (⟨[], [], [("ex:Bob", [⟨"file:///b.ttl", ⟨⟨0, 0⟩, ⟨0, 6⟩⟩⟩], )], []⟩ : IndexerState)
        [("file:///req.ttl", "ex:Bob x .")] "file:///req.ttl" ⟨0, 0⟩ "ex:Robert" = some ch ∧
        recGet ch u = some l ∧ e ∈ l) ↔
      ∃ loc ∈ renameCandidates
          (⟨[], [], [("ex:Bob", [⟨"file:///b.ttl", ⟨⟨0, 0⟩, ⟨0, 6⟩⟩⟩])], []⟩ : IndexerState)
          "ex:Bob", loc.uri = u ∧
        e = ({ range := loc.range, newText := "ex:Robert" } : RenameEdit) ∧
        rangeMatchesWord (fun _ => some "") loc.uri loc.range "ex:Bob"
          (recGet [("file:///req.ttl", "ex:Bob x .")] loc.uri) = true)) :=
  ⟨rfl, by decide,
   C3_rename_validates (fun _ => some "")
     (⟨[], [], [("ex:Bob", [⟨"file:///b.ttl", ⟨⟨0, 0⟩, ⟨0, 6⟩⟩⟩])], []⟩ : IndexerState)
     [("file:///req.ttl", "ex:Bob x .")] "file:///req.ttl" ⟨0, 0⟩ "ex:Robert"
     "ex:Bob x ." "ex:Bob" rfl (by decide)⟩

/-- C3 counterexample: the only candidate location lies in a closed document
whose on-disk content is the empty string, so its live text (`""`) does not
equal the token `ex:Bob`; the claim requires the location to be excluded (and
the rename to be null), yet `rename` returns an edit plan containing it,
because `rangeMatchesWord` treats an empty (or unreadable) file as a match. -/
theorem C3_counterexample_empty_file_included :
    rename (fun _ => some "")
        (⟨[], [], [("ex:Bob", [⟨"file:///b.ttl", ⟨⟨0, 0⟩, ⟨0, 6⟩⟩⟩])], []⟩ : IndexerState)
        [("file:///req.ttl", "ex:Bob x .")] "file:///req.ttl" ⟨0, 0⟩ "ex:Robert"
      = some [("file:///b.ttl", [⟨⟨⟨0, 0⟩, ⟨0, 6⟩⟩, "ex:Robert"⟩])] ∧
    String.mk ((((splitLines "").getD 0 "").toList.drop 0).take 6) = "" ∧
    ("" : String) ≠ "ex:Bob" := by
  refine ⟨by decide, rfl, by decide⟩

/-! ### C6/C7: characterising the two diagnostic streams -/
theorem depthStep_skip {line : String} (h : skipLine (jsTrim line)) (d : Nat × Nat) :
    depthStep d line = d := by
  unfold depthStep
  rw [if_pos h]

theorem diagScan_term_mem (declared : List String) (lines : List String)
    (k bd pd i : Nat) :
    i ∈ (diagScan declared k bd pd lines).1 ↔
      ∃ j line, lines.get? j = some line ∧ i = k + j ∧
        ¬skipLine (jsTrim line) ∧
        termEmit ((lines.take j).foldl depthStep (bd, pd)).1
          ((lines.take j).foldl depthStep (bd, pd)).2
          (sanitizeLine (jsTrim line)) = true := by
  induction lines generalizing k bd pd with
  | nil =>
    simp [diagScan]
  | cons line rest ih =>
    by_cases hskip : skipLine (jsTrim line)
    · have heq : (diagScan declared k bd pd (line :: rest)).1
          = (diagScan declared (k + 1) bd pd rest).1 := by
        simp only [diagScan]
        rw [if_pos hskip]
      rw [heq, ih]
      constructor
      · rintro ⟨j, l, hget, hi, hns, hemit⟩
        refine ⟨j + 1, l, by simpa using hget, by omega, hns, ?_⟩
        simp only [List.take_succ_cons, List.foldl_cons, depthStep_skip hskip]
        exact hemit
      · rintro ⟨j, l, hget, hi, hns, hemit⟩
        cases j with
        | zero =>
          simp only [List.get?_cons_zero] at hget
          cases hget
          exact absurd hskip hns
        | succ j =>
          refine ⟨j, l, by simpa using hget, by omega, hns, ?_⟩
          simp only [List.take_succ_cons, List.foldl_cons, depthStep_skip hskip] at hemit
          exact hemit
    · have hstep : depthStep (bd, pd) line =
          ((max 0 ((bd : Int) + countChars (sanitizeLine (jsTrim line)) '['
            - countChars (sanitizeLine (jsTrim line)) ']')).toNat,
           (max 0 ((pd : Int) + countChars (sanitizeLine (jsTrim line)) '('
            - countChars (sanitizeLine (jsTrim line)) ')')).toNat) := by
        unfold depthStep
        rw [if_neg hskip]
      have heq : (diagScan declared k bd pd (line :: rest)).1
          = (if termEmit bd pd (sanitizeLine (jsTrim line)) then [k] else []) ++
            (diagScan declared (k + 1)
              (max 0 ((bd : Int) + countChars (sanitizeLine (jsTrim line)) '['
                - countChars (sanitizeLine (jsTrim line)) ']')).toNat
              (max 0 ((pd : Int) + countChars (sanitizeLine (jsTrim line)) '('
                - countChars (sanitizeLine (jsTrim line)) ')')).toNat rest).1 := by
        simp only [diagScan]
        rw [if_neg hskip]
      rw [heq, List.mem_append, ih]
      constructor
      · rintro (hin | ⟨j, l, hget, hi, hns, hemit⟩)
        · have : termEmit bd pd (sanitizeLine (jsTrim line)) = true ∧ i = k := by
            by_cases hterm : termEmit bd pd (sanitizeLine (jsTrim line)) = true
            · rw [if_pos hterm] at hin
              simp only [List.mem_singleton] at hin
              exact ⟨hterm, hin⟩
            · rw [if_neg hterm] at hin
              cases hin
          refine ⟨0, line, rfl, by omega, hskip, ?_⟩
          simpa using this.1
        · refine ⟨j + 1, l, by simpa using hget, by omega, hns, ?_⟩
          simp only [List.take_succ_cons, List.foldl_cons, hstep]
          exact hemit
      · rintro ⟨j, l, hget, hi, hns, hemit⟩
        cases j with
        | zero =>
          simp only [List.get?_cons_zero] at hget
          cases hget
          left
          simp only [List.take_zero, List.foldl_nil] at hemit
          rw [if_pos hemit]
          simp [hi]
        | succ j =>
          right
          refine ⟨j, l, by simpa using hget, by omega, hns, ?_⟩
          simp only [List.take_succ_cons, List.foldl_cons, hstep] at hemit
          exact hemit

theorem diagScan_undecl_mem (declared : List String) (lines : List String)
    (k bd pd : Nat) (f : Nat × String × String) :
    f ∈ (diagScan declared k bd pd lines).2 ↔
      ∃ j line, lines.get? j = some line ∧ f.1 = k + j ∧
        ¬skipLine (jsTrim line) ∧
        (f.2.1, f.2.2) ∈ scanPnTokens (sanitizeLine (jsTrim line)).length
          (sanitizeLine (jsTrim line)) ∧
        declared.contains (normalizePfx f.2.1) = false := by
  induction lines generalizing k bd pd with
  | nil =>
    simp [diagScan]
  | cons line rest ih =>
    by_cases hskip : skipLine (jsTrim line)
    · have heq : (diagScan declared k bd pd (line :: rest)).2
          = (diagScan declared (k + 1) bd pd rest).2 := by
        simp only [diagScan]
        rw [if_pos hskip]
      rw [heq, ih]
      constructor
      · rintro ⟨j, l, hget, hi, hns, htok, hdecl⟩
        exact ⟨j + 1, l, by simpa using hget, by omega, hns, htok, hdecl⟩
      · rintro ⟨j, l, hget, hi, hns, htok, hdecl⟩
        cases j with
        | zero =>
          simp only [List.get?_cons_zero] at hget
          cases hget
          exact absurd hskip hns
        | succ j =>
          exact ⟨j, l, by simpa using hget, by omega, hns, htok, hdecl⟩
    · have heq : (diagScan declared k bd pd (line :: rest)).2
          = ((scanPnTokens (sanitizeLine (jsTrim line)).length
                (sanitizeLine (jsTrim line))).filter
              (fun u => !(declared.contains (normalizePfx u.1)))).map
            (fun u => (k, u.1, u.2)) ++
            (diagScan declared (k + 1)
              (max 0 ((bd : Int) + countChars (sanitizeLine (jsTrim line)) '['
                - countChars (sanitizeLine (jsTrim line)) ']')).toNat
              (max 0 ((pd : Int) + countChars (sanitizeLine (jsTrim line)) '('
                - countChars (sanitizeLine (jsTrim line)) ')')).toNat rest).2 := by
        simp only [diagScan]
        rw [if_neg hskip]
      rw [heq, List.mem_append, ih]
      constructor
      · rintro (hin | ⟨j, l, hget, hi, hns, htok, hdecl⟩)
        · rcases List.mem_map.1 hin with ⟨u, hu, hfu⟩
          have hfil := List.mem_filter.1 hu
          refine ⟨0, line, rfl, ?_, hskip, ?_, ?_⟩
          · rw [← hfu]; omega
          · rw [← hfu]
            simpa using hfil.1
          · rw [← hfu]
            simpa using hfil.2
        · exact ⟨j + 1, l, by simpa using hget, by omega, hns, htok, hdecl⟩
      · rintro ⟨j, l, hget, hi, hns, htok, hdecl⟩
        cases j with
        | zero =>
          simp only [List.get?_cons_zero] at hget
          cases hget
          left
          refine List.mem_map.2 ⟨(f.2.1, f.2.2),
            List.mem_filter.2 ⟨htok, by simpa using hdecl⟩, ?_⟩
          have hf1 : f.1 = k := by omega
          rw [← hf1]
        | succ j =>
          right
          exact ⟨j, l, by simpa using hget, by omega, hns, htok, hdecl⟩

/-- C6 (amended): `basicDiagnostics` emits a missing-terminator warning for
line `i` iff the trimmed line is nonempty and does not start with `@` or `#`,
the combined bracket+paren depth is `0` both before and after the line, the
sanitized line (strings, bracketed IRIs and line comments stripped) does not
end — optionally followed by whitespace — with one of `.`, `;`, `,`, `]`,
`)`, and the sanitized line contains a whitespace character. -/
theorem C6_missing_terminator_characterisation (entries : List NsEntry)
    (text : String) (i : Nat) :
    i ∈ basicDiagnosticsTerm entries text ↔
      ∃ line, (splitLines text).get? i = some line ∧
        ¬skipLine (jsTrim line) ∧
        (((splitLines text).take i).foldl depthStep (0, 0)).1
          + (((splitLines text).take i).foldl depthStep (0, 0)).2 = 0 ∧
        max 0 (((((splitLines text).take i).foldl depthStep (0, 0)).1
            + (((splitLines text).take i).foldl depthStep (0, 0)).2 : Int)
          + countChars (sanitizeLine (jsTrim line)) '['
          - countChars (sanitizeLine (jsTrim line)) ']'
          + countChars (sanitizeLine (jsTrim line)) '('
          - countChars (sanitizeLine (jsTrim line)) ')') = 0 ∧
        endsWithTerminator (sanitizeLine (jsTrim line)) = false ∧
        (sanitizeLine (jsTrim line)).any isJsSpace = true := by
  unfold basicDiagnosticsTerm
  rw [diagScan_term_mem]
  constructor
  · rintro ⟨j, l, hget, hi, hns, hemit⟩
    have hj : j = i := by omega
    subst hj
    simp only [termEmit, Bool.and_eq_true, decide_eq_true_eq, Bool.not_eq_true',
      Bool.not_eq_true] at hemit
    exact ⟨l, hget, hns, hemit.1.1.1, hemit.1.1.2, hemit.1.2, hemit.2⟩
  · rintro ⟨l, hget, hns, h1, h2, h3, h4⟩
    refine ⟨i, l, hget, by omega, hns, ?_⟩
    simp only [termEmit, Bool.and_eq_true, decide_eq_true_eq, Bool.not_eq_true',
      Bool.not_eq_true]
    exact ⟨⟨⟨h1, h2⟩, h3⟩, h4⟩

/-- C7 (amended): `basicDiagnostics` emits an undeclared-prefix warning for a
token occurrence `prefix:suffix` (a match of the sanitized line, so content
inside stripped strings, IRIs and comments never triggers one) iff the
normalized prefix is not in the set of prefixes the document itself declares.
The default well-known prefixes do NOT count as declared for this check: the
strict `declaredPrefixes` set is used, not the defaults-overlaid `prefixMap`
(which only feeds the unknown-term check). -/
theorem C7_undeclared_characterisation (entries : List NsEntry) (text : String)
    (f : Nat × String × String) :
    f ∈ basicDiagnosticsUndecl entries text ↔
      ∃ line, (splitLines text).get? f.1 = some line ∧
        ¬skipLine (jsTrim line) ∧
        (f.2.1, f.2.2) ∈ scanPnTokens (sanitizeLine (jsTrim line)).length
          (sanitizeLine (jsTrim line)) ∧
        (declaredSet entries).contains (normalizePfx f.2.1) = false := by
  unfold basicDiagnosticsUndecl
  rw [diagScan_undecl_mem]
  constructor
  · rintro ⟨j, l, hget, hi, hns, htok, hdecl⟩
    have hj : j = f.1 := by omega
    subst hj
    exact ⟨l, hget, hns, htok, hdecl⟩
  · rintro ⟨l, hget, hns, htok, hdecl⟩
    exact ⟨f.1, l, hget, by omega, hns, htok, hdecl⟩

/-- C6 counterexample: the single-line document `a [ b ]` is at depth 0
before and after its only line, does not end with `.`, `;` or `,`, and
contains internal whitespace — the claim demands a missing-terminator finding
— yet the code emits none, because its terminator regex `[.;,\]\)]\s*$` also
accepts `]` and `)` as line terminators. -/
theorem C6_counterexample_bracket_terminator :
    basicDiagnosticsTerm [] "a [ b ]" = [] ∧
    (jsTrim "a [ b ]").toList.getLast? = some ']' ∧
    sanitizeLine (jsTrim "a [ b ]") = "a [ b ]".toList ∧
    countChars (sanitizeLine (jsTrim "a [ b ]")) '[' = 1 ∧
    countChars (sanitizeLine (jsTrim "a [ b ]")) ']' = 1 ∧
    countChars (sanitizeLine (jsTrim "a [ b ]")) '(' = 0 ∧
    countChars (sanitizeLine (jsTrim "a [ b ]")) ')' = 0 ∧
    (sanitizeLine (jsTrim "a [ b ]")).any isJsSpace = true := by
  decide

/-- C7 counterexample: in a document with no prefix declarations, the token
`rdf:type` is flagged as undeclared even though `rdf` is one of the default
well-known prefixes (and is present in the defaults-overlaid prefix map):
the strict check consults only the document's own declarations. -/
theorem C7_counterexample_default_still_flagged :
    basicDiagnosticsUndecl (collectNamespaceEntriesFallback "x rdf:type y .")
        "x rdf:type y ." = [(0, "rdf", "type")] ∧
    recHas defaultPrefixes "rdf" = true ∧
    recHas (buildPrefixMap (collectNamespaceEntriesFallback "x rdf:type y .")) "rdf" = true := by
  decide

theorem framePreserved_refl (s : IndexerState) (d' : String) : framePreserved s s d' :=
  ⟨rfl, fun _ => ⟨rfl, rfl, rfl⟩⟩

theorem framePreserved_trans {s t u : IndexerState} {d' : String}
    (h1 : framePreserved s t d') (h2 : framePreserved t u d') :
    framePreserved s u d' :=
  ⟨h2.1.trans h1.1, fun label =>
    ⟨(h2.2 label).1.trans (h1.2 label).1,
     (h2.2 label).2.1.trans (h1.2 label).2.1,
     (h2.2 label).2.2.trans (h1.2 label).2.2⟩⟩

theorem filterErase_frame (o : Option (List Location)) (d d' : String) (hne : d' ≠ d) :
    ((filterErase o d).getD []).filter (fun l => l.uri = d')
      = (o.getD []).filter (fun l => l.uri = d') := by
  cases o with
  | none => rfl
  | some locs =>
    rw [filterErase_some]
    by_cases he : (locs.filter (fun l => l.uri ≠ d)).isEmpty
    · rw [if_pos he]
      rw [List.isEmpty_iff] at he
      show ([] : List Location).filter _ = locs.filter _
      rw [List.filter_nil]
      symm
      rw [List.filter_eq_nil_iff]
      intro a ha
      have had : a.uri = d := by
        by_contra hcon
        have : a ∈ locs.filter (fun l => l.uri ≠ d) :=
          List.mem_filter.2 ⟨ha, by simpa using hcon⟩
        rw [he] at this
        cases this
      rw [had]
      simp only [decide_eq_true_eq]
      exact fun h => hne h.symm
    · rw [if_neg he]
      show (locs.filter _).filter _ = _
      rw [List.filter_filter]
      apply List.filter_congr
      intro a _
      by_cases hx : a.uri = d'
      · simp [hx, fun h : d' = d => hne h]
      · simp [hx]

theorem appendOpt_frame (o : Option (List Location)) (new : List Location)
    (d' : String) (hnew : ∀ loc ∈ new, loc.uri ≠ d') :
    ((appendOpt o new).getD []).filter (fun l => l.uri = d')
      = (o.getD []).filter (fun l => l.uri = d') := by
  unfold appendOpt
  by_cases he : new.isEmpty
  · rw [if_pos he]
  · rw [if_neg he]
    show ((o.getD []) ++ new).filter _ = _
    rw [List.filter_append]
    have hnil : new.filter (fun l => l.uri = d') = [] := by
      rw [List.filter_eq_nil_iff]
      intro a ha
      simpa using hnew a ha
    rw [hnil, List.append_nil]

theorem frame_removeAll_getD (idx : Rec (List Location)) (hm : nodupKeys idx)
    (d d' : String) (hne : d' ≠ d) (entries : List (String × Range)) (label : String) :
    ((recGet (removeAll idx d entries) label).getD []).filter (fun l => l.uri = d')
      = ((recGet idx label).getD []).filter (fun l => l.uri = d') := by
  rw [recGet_removeAll idx hm d entries label]
  by_cases hcov : (entries.any fun e => e.1 = label)
  · rw [if_pos hcov]
    exact filterErase_frame _ d d' hne
  · rw [if_neg hcov]

theorem frame_insertAll_getD (idx : Rec (List Location)) (d d' : String)
    (hne : d' ≠ d) (entries : List (String × Range)) (label : String) :
    ((recGet (insertAll idx d entries) label).getD []).filter (fun l => l.uri = d')
      = ((recGet idx label).getD []).filter (fun l => l.uri = d') := by
  rw [recGet_insertAll idx d entries label]
  apply appendOpt_frame
  intro loc hl
  rcases List.mem_map.1 hl with ⟨y, -, hy⟩
  rw [← hy]
  exact fun h => hne (h.symm)

theorem framePreserved_removeFromIndexes (s : IndexerState) (d d' : String)
    (hw : wfState s) (hne : d ≠ d') :
    framePreserved s (removeFromIndexes s d) d' := by
  have hne' : d' ≠ d := fun h => hne h.symm
  cases hc : recGet s.docCache d with
  | some cached =>
    rw [removeFromIndexes_eq_some hc]
    refine ⟨recGet_recDelete_ne s.docCache d d' hne, fun label => ?_⟩
    exact ⟨frame_removeAll_getD s.prefixIndex hw.2.1 d d' hne' cached.prefixes label,
           frame_removeAll_getD s.subjectIndex hw.2.2.1 d d' hne' cached.subjects label,
           frame_removeAll_getD s.symbolIndex hw.2.2.2.1 d d' hne' cached.symbols label⟩
  | none =>
    rw [removeFromIndexes_eq_none hc]
    exact ⟨recGet_recDelete_ne s.docCache d d' hne, fun _ => ⟨rfl, rfl, rfl⟩⟩

theorem framePreserved_reindexDocument (extract : String → Extraction)
    (s : IndexerState) (d d' text : String) (hw : wfState s) (hne : d ≠ d') :
    framePreserved s (reindexDocument extract s d text) d' := by
  have hne' : d' ≠ d := fun h => hne h.symm
  refine framePreserved_trans (framePreserved_removeFromIndexes s d d' hw hne) ?_
  rw [reindexDocument_def]
  refine ⟨recGet_recSet_ne _ d d' _ hne, fun label => ?_⟩
  exact ⟨frame_insertAll_getD _ d d' hne' _ label,
         frame_insertAll_getD _ d d' hne' _ label,
         frame_insertAll_getD _ d d' hne' _ label⟩

/-- C10: for distinct document uris `d ≠ d'`, `reindexDocument(d, text)` and
`removeFromIndexes(d)` leave `d'`'s contribution record unchanged, and every
location with uri `d'` in each of the three global indexes survives in its
original relative order. -/
theorem C10_other_documents_frame (extract : String → Extraction)
    (ops : List IndexOp) (d d' text : String) (hne : d ≠ d') :
    framePreserved (runOps extract ops)
        (removeFromIndexes (runOps extract ops) d) d' ∧
    framePreserved (runOps extract ops)
        (reindexDocument extract (runOps extract ops) d text) d' :=
  ⟨framePreserved_removeFromIndexes _ d d' (wfState_runOps extract ops) hne,
   framePreserved_reindexDocument extract _ d d' text (wfState_runOps extract ops) hne⟩

/-- Witness for C10 at concrete inputs: one indexed document, a different one
removed/reindexed. -/
theorem C10_other_documents_frame_witness :
    ("file:///a.ttl" : String) ≠ "file:///b.ttl" ∧
    (framePreserved (runOps fallbackExtract [IndexOp.reindex "file:///b.ttl" "ex:a ex:a"])
        (removeFromIndexes
          (runOps fallbackExtract [IndexOp.reindex "file:///b.ttl" "ex:a ex:a"])
          "file:///a.ttl") "file:///b.ttl" ∧
     framePreserved (runOps fallbackExtract [IndexOp.reindex "file:///b.ttl" "ex:a ex:a"])
        (reindexDocument fallbackExtract
          (runOps fallbackExtract [IndexOp.reindex "file:///b.ttl" "ex:a ex:a"])
          "file:///a.ttl" "x:y z:w") "file:///b.ttl") :=
  ⟨by decide,
   C10_other_documents_frame fallbackExtract
     [IndexOp.reindex "file:///b.ttl" "ex:a ex:a"]
     "file:///a.ttl" "file:///b.ttl" "x:y z:w" (by decide)⟩

/-! ### C8: symbol entries are per occurrence, not per document -/


/-- Reindexing into the empty index stores, for each label, exactly one symbol
location per extracted symbol occurrence, in occurrence order. -/
theorem C8_amended_symbols_per_occurrence (extract : String → Extraction)
    (uri text label : String) :
    getSymbols (reindexDocument extract emptyState uri text) label
      = ((extract text).symbols.filter (fun e => e.1 = label)).map
          (fun e => ({ uri := uri, range := e.2 } : Location)) := by
  unfold getSymbols
  rw [reindexDocument_def]
  have hempty : removeFromIndexes emptyState uri = emptyState := rfl
  rw [hempty]
  rw [recGet_insertAll]
  have hnone : recGet emptyState.symbolIndex label = none := rfl
  rw [hnone]
  unfold appendOpt
  by_cases he : (((extractionCache (extract text)).symbols.filter (fun e => e.1 = label)).map
      (fun e => ({ uri := uri, range := e.2 } : Location))).isEmpty
  · rw [if_pos he]
    rw [List.isEmpty_iff] at he
    show ([] : List Location) = _
    rw [← he]
    rfl
  · rw [if_neg he]
    rfl

/-- C8 counterexample: the text `"ex:a ex:a"` mentions the symbol `ex:a`
twice; after reindexing one document the symbol index holds two locations
with the same uri for that one label (the contribution records the label once
per occurrence, not once per document). -/
theorem C8_counterexample_symbol_recorded_twice :
    recGet (reindexDocument fallbackExtract emptyState
        "file:///d.ttl" "ex:a ex:a").symbolIndex "ex:a"
      = some
        [{ uri := "file:///d.ttl",
           range := { startPos := { line := 0, character := 0 }
                      endPos := { line := 0, character := 4 } } },
         { uri := "file:///d.ttl",
           range := { startPos := { line := 0, character := 5 }
                      endPos := { line := 0, character := 9 } } }] := by
  decide

/-! ### C4: completion ranking -/
theorem mem_insertSorted {α : Type} (le : α → α → Bool) (x a : α) :
    ∀ l : List α, a ∈ insertSorted le x l ↔ a = x ∨ a ∈ l := by
  intro l
  induction l with
  | nil => simp [insertSorted]
  | cons y ys ih =>
      by_cases h : le x y
      · simp [insertSorted, h]
      · simp [insertSorted, h, ih]
        tauto

theorem pairwise_insertSorted {α : Type} (le : α → α → Bool)
    (htrans : ∀ a b c, le a b = true → le b c = true → le a c = true)
    (htotal : ∀ a b, le a b = true ∨ le b a = true) (x : α) :
    ∀ l : List α, l.Pairwise (fun a b => le a b = true) →
      (insertSorted le x l).Pairwise (fun a b => le a b = true) := by
  intro l
  induction l with
  | nil =>
      intro _
      simp [insertSorted]
  | cons y ys ih =>
      intro hp
      rcases List.pairwise_cons.mp hp with ⟨hy, hys⟩
      by_cases h : le x y
      · simp only [insertSorted]
        rw [if_pos h]
        refine List.pairwise_cons.mpr ⟨?_, hp⟩
        intro b hb
        rcases List.mem_cons.mp hb with rfl | hb2
        · exact h
        · exact htrans x y b h (hy b hb2)
      · simp only [insertSorted]
        rw [if_neg h]
        refine List.pairwise_cons.mpr ⟨?_, ih hys⟩
        intro b hb
        rcases (mem_insertSorted le x b ys).mp hb with rfl | hb2
        · rcases htotal b y with hxy | hyx
          · exact absurd hxy h
          · exact hyx
        · exact hy b hb2

theorem pairwise_insertionSort {α : Type} (le : α → α → Bool)
    (htrans : ∀ a b c, le a b = true → le b c = true → le a c = true)
    (htotal : ∀ a b, le a b = true ∨ le b a = true) :
    ∀ l : List α, (insertionSort le l).Pairwise (fun a b => le a b = true) := by
  intro l
  induction l with
  | nil => simp [insertionSort]
  | cons x xs ih => exact pairwise_insertSorted le htrans htotal x _ ih

theorem mem_insertionSort {α : Type} (le : α → α → Bool) (a : α) :
    ∀ l : List α, a ∈ insertionSort le l ↔ a ∈ l := by
  intro l
  induction l with
  | nil => simp [insertionSort]
  | cons x xs ih =>
      simp only [insertionSort]
      rw [mem_insertSorted le x a (insertionSort le xs), ih]
      simp

theorem localeLe_total : ∀ xs ys : List Char, localeLe xs ys = true ∨ localeLe ys xs = true := by
  intro xs
  induction xs with
  | nil => intro ys; exact Or.inl rfl
  | cons c1 r1 ih =>
      intro ys
      cases ys with
      | nil => exact Or.inr rfl
      | cons c2 r2 =>
          simp only [localeLe]
          by_cases e : c1.toNat = c2.toNat
          · rw [if_pos e, if_pos e.symm]
            exact ih r2
          · rw [if_neg e, if_neg (fun hh => e hh.symm)]
            rcases Nat.lt_or_ge c1.toNat c2.toNat with hlt | hge
            · exact Or.inl (decide_eq_true hlt)
            · exact Or.inr (decide_eq_true (by omega))

theorem localeLe_trans : ∀ xs ys zs : List Char,
    localeLe xs ys = true → localeLe ys zs = true → localeLe xs zs = true := by
  intro xs
  induction xs with
  | nil => intro ys zs h1 h2; rfl
  | cons c1 r1 ih =>
      intro ys zs h1 h2
      cases ys with
      | nil => exact absurd h1 (by simp [localeLe])
      | cons c2 r2 =>
          cases zs with
          | nil => exact absurd h2 (by simp [localeLe])
          | cons c3 r3 =>
              simp only [localeLe] at h1 h2 ⊢
              by_cases e12 : c1.toNat = c2.toNat
              · rw [if_pos e12] at h1
                by_cases e23 : c2.toNat = c3.toNat
                · rw [if_pos e23] at h2
                  rw [if_pos (e12.trans e23)]
                  exact ih r2 r3 h1 h2
                · rw [if_neg e23] at h2
                  have h2x := of_decide_eq_true h2
                  rw [if_neg (show ¬ c1.toNat = c3.toNat by omega)]
                  exact decide_eq_true (by omega)
              · rw [if_neg e12] at h1
                have h1x := of_decide_eq_true h1
                by_cases e23 : c2.toNat = c3.toNat
                · rw [if_neg (show ¬ c1.toNat = c3.toNat by omega)]
                  exact decide_eq_true (by omega)
                · rw [if_neg e23] at h2
                  have h2x := of_decide_eq_true h2
                  rw [if_neg (show ¬ c1.toNat = c3.toNat by omega)]
                  exact decide_eq_true (by omega)

theorem localeLe_append_left (s1 s2 : List Char) :
    ∀ p1 p2 : List Char, p1.length = p2.length →
      localeLe (p1 ++ s1) (p2 ++ s2) = true → localeLe p1 p2 = true := by
  intro p1
  induction p1 with
  | nil =>
      intro p2 hlen _
      cases p2 with
      | nil => rfl
      | cons c r => simp at hlen
  | cons c1 r1 ih =>
      intro p2 hlen h
      cases p2 with
      | nil => simp at hlen
      | cons c2 r2 =>
          simp only [List.cons_append, localeLe] at h ⊢
          by_cases e : c1.toNat = c2.toNat
          · rw [if_pos e] at h ⊢
            exact ih r2 (by simpa using hlen) h
          · rw [if_neg e] at h ⊢
            exact h

theorem completionLe_trans (a b c : CItem) :
    completionLe a b = true → completionLe b c = true → completionLe a c = true := by
  simp only [completionLe, localeLeStr]
  exact localeLe_trans _ _ _

theorem completionLe_total (a b : CItem) :
    completionLe a b = true ∨ completionLe b a = true := by
  simp only [completionLe, localeLeStr]
  exact localeLe_total _ _

theorem assignBucket_length (cp ql : String) (it : CItem) :
    (assignBucket cp ql it).toList.length = 3 := by
  simp only [assignBucket]
  split
  · split
    · decide
    · decide
  · split
    · decide
    · split
      · decide
      · split
        · decide
        · decide

theorem assignBucket_congr (cp ql : String) (a b : CItem)
    (hl : a.label = b.label) (hk : a.kind = b.kind) :
    assignBucket cp ql a = assignBucket cp ql b := by
  simp only [assignBucket, hl, hk]

theorem mem_dedupByLabelAux (a : CItem) :
    ∀ (fuel : Nat) (l : List CItem), a ∈ dedupByLabelAux fuel l → a ∈ l := by
  intro fuel
  induction fuel with
  | zero => intro l h; simp [dedupByLabelAux] at h
  | succ n ih =>
      intro l h
      cases l with
      | nil => simp [dedupByLabelAux] at h
      | cons x xs =>
          simp only [dedupByLabelAux] at h
          rcases List.mem_cons.mp h with rfl | h2
          · exact List.mem_cons_self _ _
          · exact List.mem_cons_of_mem _ (List.mem_filter.mp (ih _ h2)).1

theorem sortText_mark (cp ql : String) (base : CItem) :
    ({ base with sortText := some (assignBucket cp ql base ++ "_" ++ base.label) } : CItem).sortText
      = some (assignBucket cp ql
            { base with sortText := some (assignBucket cp ql base ++ "_" ++ base.label) }
          ++ "_"
          ++ ({ base with
                sortText := some (assignBucket cp ql base ++ "_" ++ base.label) } : CItem).label) := by
  have h := assignBucket_congr cp ql
      { base with sortText := some (assignBucket cp ql base ++ "_" ++ base.label) } base rfl rfl
  rw [h]

theorem buildItems_sortText (s : IndexerState) (cv : List CItem) (cache : Rec (List CItem))
    (text : String) (position : Pos) (ns : List NsEntry) (nsmap : Rec String)
    (it : CItem) (hit : it ∈ buildItems s cv cache text position ns nsmap) :
    it.sortText = some (assignBucket
        (detectPrefixAtPosition text position ((currentWord text position).getD ""))
        (toLowerStr ((currentWord text position).getD "")) it ++ "_" ++ it.label) := by
  simp only [buildItems] at hit
  rcases List.mem_map.mp hit with ⟨base, hbase, heq⟩
  rw [← heq]
  exact sortText_mark
    (detectPrefixAtPosition text position ((currentWord text position).getD ""))
    (toLowerStr ((currentWord text position).getD "")) base

theorem sortKey_data (b l : String) :
    (b ++ "_" ++ l).toList = b.toList ++ ("_" ++ l).toList := by
  show (b ++ "_" ++ l).data = b.data ++ ("_" ++ l).data
  simp [String.data_append, List.append_assoc]

/-- C4 (amended): every item returned by `build` carries the sort key
`bucket ++ "_" ++ label` with the bucket assigned by the code's strategy
(`005`/`010` when an active prefix matches the item's prefix — `005` when the
item's lowercased label *starts with* the lowercased typed text — `020` when
there is no active prefix and the lowercased label starts with the typed text,
`050` for subject references, `100` for keywords, `900` otherwise), and the
returned list is sorted by code-point comparison of those keys; consequently
items in a lower-numbered bucket always precede items in a higher-numbered
bucket. -/
theorem C4_completion_ranking (s : IndexerState) (commonVocabItems : List CItem)
    (cachedVocabs : Rec (List CItem)) (text : String) (position : Pos)
    (namespaces : List NsEntry) (namespaceMap : Rec String) :
    (∀ it ∈ build s commonVocabItems cachedVocabs text position namespaces namespaceMap,
        it.sortText = some (assignBucket
            (detectPrefixAtPosition text position ((currentWord text position).getD ""))
            (toLowerStr ((currentWord text position).getD "")) it ++ "_" ++ it.label))
    ∧ (build s commonVocabItems cachedVocabs text position namespaces namespaceMap).Pairwise
        (fun a b => completionLe a b = true)
    ∧ (build s commonVocabItems cachedVocabs text position namespaces namespaceMap).Pairwise
        (fun a b => localeLeStr
            (assignBucket
              (detectPrefixAtPosition text position ((currentWord text position).getD ""))
              (toLowerStr ((currentWord text position).getD "")) a)
            (assignBucket
              (detectPrefixAtPosition text position ((currentWord text position).getD ""))
              (toLowerStr ((currentWord text position).getD "")) b) = true) := by
  have hmem : ∀ it ∈ build s commonVocabItems cachedVocabs text position namespaces namespaceMap,
      it.sortText = some (assignBucket
          (detectPrefixAtPosition text position ((currentWord text position).getD ""))
          (toLowerStr ((currentWord text position).getD "")) it ++ "_" ++ it.label) := by
    intro it hit
    simp only [build] at hit
    exact buildItems_sortText s commonVocabItems cachedVocabs text position namespaces
      namespaceMap it
      (mem_dedupByLabelAux it _ _ ((mem_insertionSort completionLe it _).mp hit))
  have hpair : (build s commonVocabItems cachedVocabs text position namespaces
      namespaceMap).Pairwise (fun a b => completionLe a b = true) := by
    simp only [build]
    exact pairwise_insertionSort completionLe completionLe_trans completionLe_total _
  refine ⟨hmem, hpair, ?_⟩
  refine List.Pairwise.imp_of_mem ?_ hpair
  intro a b ha hb hab
  have hka := hmem a ha
  have hkb := hmem b hb
  simp only [completionLe, localeLeStr] at hab
  rw [hka, hkb] at hab
  simp only [Option.getD_some] at hab
  rw [sortKey_data, sortKey_data] at hab
  simp only [localeLeStr]
  exact localeLe_append_left _ _ _ _
    (by rw [assignBucket_length, assignBucket_length]) hab

/-- C4 counterexample to the stated direction: in document "zz ax" with the
cursor at the end of line 0, the typed word is "ax" and no prefix is active;
the keyword "a" has a full label that is a case-insensitive prefix of the
typed text, yet it is ranked in the keyword bucket 100 and appears *after*
the cross-file subject reference "zz" (bucket 050) — the code tests
label.startsWith(typed), not typed.startsWith(label). -/
theorem C4_counterexample_prefix_direction :
    currentWord "zz ax" ⟨0, 5⟩ = some "ax"
    ∧ detectPrefixAtPosition "zz ax" ⟨0, 5⟩ "ax" = ""
    ∧ (toLowerStr "a").toList.isPrefixOf (toLowerStr "ax").toList = true
    ∧ build emptyState [] [] "zz ax" ⟨0, 5⟩ [] [] =
        [⟨"zz", ItemKind.reference, some "050_zz"⟩,
         ⟨"@base", ItemKind.keyword, some "100_@base"⟩,
         ⟨"@prefix", ItemKind.keyword, some "100_@prefix"⟩,
         ⟨"BASE", ItemKind.keyword, some "100_BASE"⟩,
         ⟨"PREFIX", ItemKind.keyword, some "100_PREFIX"⟩,
         ⟨"a", ItemKind.keyword, some "100_a"⟩] := by
  decide

/-- The amended ranking theorem evaluated on a concrete request: the subject
reference "zz" is in the output and carries the computed sort key. -/
theorem C4_completion_ranking_witness :
    (⟨"zz", ItemKind.reference, some "050_zz"⟩ : CItem)
        ∈ build emptyState [] [] "zz ax" ⟨0, 5⟩ [] []
    ∧ (some "050_zz" : Option String) = some (assignBucket
        (detectPrefixAtPosition "zz ax" ⟨0, 5⟩ ((currentWord "zz ax" ⟨0, 5⟩).getD ""))
        (toLowerStr ((currentWord "zz ax" ⟨0, 5⟩).getD ""))
        ⟨"zz", ItemKind.reference, some "050_zz"⟩ ++ "_" ++ "zz") :=
  ⟨by decide, (C4_completion_ranking emptyState [] [] "zz ax" ⟨0, 5⟩ [] []).1
    ⟨"zz", ItemKind.reference, some "050_zz"⟩ (by decide)⟩

end TurtleLsp
